import Mathlib

/-!
Shallow embedding of the version-history layout engine of
`src/components/GitBranchView.tsx` (capsule-manager).

The embedding models, faithfully to the TypeScript source:
* `sortedVersions` — stable chronological sort plus ordinal fill
  (`v.version_number || (idx + 1)`, with JavaScript truthiness, so a
  present-but-zero ordinal is replaced);
* `buildChildrenMap` / `isRoot` — the forest builder (dangling parents
  make roots; `parent_version_id` is tested for truthiness, so the empty
  string counts as "no parent");
* `assignPosition` / `assignChildren` — the recursive lane/row placement
  with per-lane row-collision resolution (`while laneUsage[lane]?.includes(row)`)
  and branch-lane allocation from `Object.keys(laneNextRow).length`;
* `layout` — the whole pipeline, returning `none` exactly where the
  source returns `null` (empty input).  Recursion in the source is
  unbounded; the embedding uses explicit fuel, and fuel exhaustion is
  also mapped to `none` (it is proved below that for acyclic input the
  chosen fuel never runs out).
-/

namespace CapsuleGraph

/-- A capsule version record, as consumed by `GitBranchView`
(`CapsuleVersion` in `src/lib/capsule-types.ts`): timestamps are modelled
by their `getTime` value, and `version_number` by `Option Nat` so that the
JavaScript-falsy values `undefined` and `0` can both be represented
(`none` and `some 0`). -/
structure CapsuleVersion where
  version_id : String
  parent_version_id : Option String
  created_at : Nat
  version_number : Option Nat
  deriving DecidableEq, Repr

/-- The comparator of the chronological sort: ascending `created_at`. -/
def leCreated (a b : CapsuleVersion) : Prop :=
  a.created_at ≤ b.created_at

instance : DecidableRel leCreated := fun a b => Nat.decLe a.created_at b.created_at

/-- The stable ascending sort by `created_at`
(`[...versions].sort((a, b) => getTime(a) - getTime(b))`; the JavaScript
sort is stable, which insertion sort by `≤` realises). -/
def sortVersions (l : List CapsuleVersion) : List CapsuleVersion :=
  List.insertionSort leCreated l

/-- `version_number: v.version_number || (idx + 1)` — JavaScript `||`
falls through on the falsy values `undefined` and `0`. -/
def fillOrdinal (idx : Nat) (v : CapsuleVersion) : CapsuleVersion :=
  { v with
    version_number :=
      some (match v.version_number with
            | none => idx + 1
            | some n => if n = 0 then idx + 1 else n) }

/-- The `.map((v, idx) => ...)` pass assigning ordinals by sorted index. -/
def fillOrdinals : Nat → List CapsuleVersion → List CapsuleVersion
  | _, [] => []
  | idx, v :: rest => fillOrdinal idx v :: fillOrdinals (idx + 1) rest

/-- `sortedVersions` of the source: sort chronologically, then fill
missing (or zero) ordinals with `1 + index`. -/
def sortedVersions (versions : List CapsuleVersion) : List CapsuleVersion :=
  fillOrdinals 0 (sortVersions versions)

/-- The parent reference as the source tests it: `v.parent_version_id`
under JavaScript truthiness (absent and `""` are both falsy). -/
def parentKey (v : CapsuleVersion) : Option String :=
  match v.parent_version_id with
  | none => none
  | some p => if p = "" then none else some p

/-- Association-list lookup, modelling JavaScript `record[key]`. -/
def lookupA {α β : Type} [DecidableEq α] : List (α × β) → α → Option β
  | [], _ => none
  | (k, v) :: rest, a => if k = a then some v else lookupA rest a

/-- Association-list write, modelling `record[key] = value` (overwrite in
place, or append a fresh key). -/
def upsertA {α β : Type} [DecidableEq α] : List (α × β) → α → β → List (α × β)
  | [], a, b => [(a, b)]
  | (k, v) :: rest, a, b =>
    if k = a then (a, b) :: rest else (k, v) :: upsertA rest a b

/-- Append `b` to the list stored at key `a`, creating `[b]` when the key
is absent (`if (!m[a]) m[a] = []; m[a].push(b)`). -/
def pushA {α β : Type} [DecidableEq α] : List (α × List β) → α → β → List (α × List β)
  | [], a, b => [(a, [b])]
  | (k, v) :: rest, a, b =>
    if k = a then (k, v ++ [b]) :: rest else (k, v) :: pushA rest a b

/-- The `childrenMap` build: one pass over the sorted records, appending
each record's id to its parent's child list. -/
def buildChildrenMap (sv : List CapsuleVersion) : List (String × List String) :=
  sv.foldl
    (fun m v =>
      match parentKey v with
      | none => m
      | some p => pushA m p v.version_id)
    []

/-- `childrenMap[vId] || []`. -/
def childrenOf (cm : List (String × List String)) (k : String) : List String :=
  (lookupA cm k).getD []

/-- The root test of the source:
`!v.parent_version_id || !sortedVersions.find(sv => sv.version_id === v.parent_version_id)`. -/
def isRoot (sv : List CapsuleVersion) (v : CapsuleVersion) : Bool :=
  match parentKey v with
  | none => true
  | some p => !(sv.any fun w => w.version_id = p)

/-- `laneUsage[lane]` with the `?? []` reading used by
`laneUsage[lane]?.includes(row)`. -/
def usedRows (usage : List (Nat × List Nat)) (lane : Nat) : List Nat :=
  (lookupA usage lane).getD []

/-- Fuel-bounded body of the `while (laneUsage[lane]?.includes(row)) row++`
loop. -/
def resolveRowAux (used : List Nat) : Nat → Nat → Nat
  | 0, row => row
  | f + 1, row => if row ∈ used then resolveRowAux used f (row + 1) else row

/-- The row-collision loop: the first free row at or above `startRow`.
`used.length + 1` steps always reach a free row (proved below), so this
equals the source's unbounded `while` loop. -/
def resolveRow (used : List Nat) (startRow : Nat) : Nat :=
  resolveRowAux used (used.length + 1) startRow

/-- One placed node (`NodePosition` of the source). -/
structure NodePosition where
  x : Nat
  y : Nat
  lane : Nat
  row : Nat
  deriving DecidableEq, Repr

/-- The mutable state threaded through the traversal: `positions`,
`laneNextRow` (whose key count drives branch-lane numbering) and
`laneUsage`. -/
structure LayoutState where
  positions : List (String × NodePosition)
  laneNextRow : List (Nat × Nat)
  laneUsage : List (Nat × List Nat)
  deriving DecidableEq, Repr

/-- The row that `assignPosition` resolves for a request
`(lane, startRow)` in state `st`. -/
def resolvedRowAt (st : LayoutState) (lane startRow : Nat) : Nat :=
  resolveRow (usedRows st.laneUsage lane) startRow

/-- The state change of one placement: record the position
(`positions[vId] = {x, y, lane, row}`) and claim the row
(`laneUsage[lane].push(row)`). -/
def placeAt (st : LayoutState) (vId : String) (lane startRow : Nat) : LayoutState :=
  let row := resolvedRowAt st lane startRow
  { st with
    positions := upsertA st.positions vId ⟨lane * 80, row * 80, lane, row⟩
    laneUsage := pushA st.laneUsage lane row }

/-- The `children.forEach((childId, idx) => ...)` loop, abstracted over
the recursive placement call `go`: the first child requests the parent's
lane, every later child requests lane `Object.keys(laneNextRow).length`
and registers it in `laneNextRow` before recursing. -/
def childLoop (go : String → Nat → Nat → LayoutState → Option LayoutState)
    (lane row : Nat) : List String → Nat → LayoutState → Option LayoutState
  | [], _, st => some st
  | c :: rest, idx, st =>
    let nextLane := if idx = 0 then lane else st.laneNextRow.length
    let st1 := if idx = 0 then st else
      { st with laneNextRow := upsertA st.laneNextRow nextLane (row + 1) }
    match go c nextLane (row + 1) st1 with
    | none => none
    | some st2 => childLoop go lane row rest (idx + 1) st2

/-- `assignPosition(vId, lane, startRow)` of the source, with explicit
fuel standing in for the unbounded recursion (fuel exhaustion gives
`none`): resolve the row, record the position and the row claim, then
walk the children. -/
def assignPosition (cm : List (String × List String)) : Nat → String →
    Nat → Nat → LayoutState → Option LayoutState
  | 0, _, _, _, _ => none
  | f + 1, vId, lane, startRow, st =>
    childLoop (assignPosition cm f) lane (resolvedRowAt st lane startRow)
      (childrenOf cm vId) 0 (placeAt st vId lane startRow)

/-- The children pass at a given fuel level. -/
def assignChildren (cm : List (String × List String)) (fuel : Nat) :
    Nat → Nat → List String → Nat → LayoutState → Option LayoutState :=
  childLoop (assignPosition cm fuel)

/-- `roots.forEach((root, idx) => assignPosition(root.version_id, idx, 0))`. -/
def runRoots (cm : List (String × List String)) (fuel : Nat) :
    List CapsuleVersion → Nat → LayoutState → Option LayoutState
  | [], _, st => some st
  | r :: rest, idx, st =>
    match assignPosition cm fuel r.version_id idx 0 st with
    | none => none
    | some st' => runRoots cm fuel rest (idx + 1) st'

/-- The layout output (`{ positions, maxLane, maxRow }`). -/
structure LayoutResult where
  positions : List (String × NodePosition)
  maxLane : Nat
  maxRow : Nat
  deriving DecidableEq, Repr

/-- The initial traversal state: `positions = {}`,
`laneNextRow = { 0: 0 }`, `laneUsage = {}`. -/
def initState : LayoutState :=
  ⟨[], [(0, 0)], []⟩

/-- The fuel handed to each root traversal; proved sufficient for every
acyclic batch. -/
def layoutFuel (sv : List CapsuleVersion) : Nat :=
  sv.length + 1

/-- The `layout` memo of the source: `null` (here `none`) on empty input,
otherwise sort, build the forest, place every root's subtree, and take
the maxima (`Math.max(..., 0)`). -/
def layout (versions : List CapsuleVersion) : Option LayoutResult :=
  let sv := sortedVersions versions
  if sv.isEmpty then none
  else
    let cm := buildChildrenMap sv
    let rts := sv.filter (fun v => isRoot sv v)
    match runRoots cm (layoutFuel sv) rts 0 initState with
    | none => none
    | some st =>
      some
        { positions := st.positions
          maxLane := (st.positions.map (fun kp => kp.2.lane)).foldr max 0
          maxRow := (st.positions.map (fun kp => kp.2.row)).foldr max 0 }

/-- The positions surfaced by a layout (`{}` for the `null` result). -/
def positionsOf (r : Option LayoutResult) : List (String × NodePosition) :=
  match r with
  | none => []
  | some res => res.positions

/-- The ids of a batch, in order. -/
def idsOf (sv : List CapsuleVersion) : List String :=
  sv.map (fun v => v.version_id)

/-!  ### Association-list lemmas  -/

section Assoc

variable {α β : Type} [DecidableEq α]

theorem lookupA_append_some {l m : List (α × β)} {k : α} {v : β}
    (h : lookupA l k = some v) : lookupA (l ++ m) k = some v := by
  induction l with
  | nil => simp [lookupA] at h
  | cons e rest ih =>
    obtain ⟨k', v'⟩ := e
    by_cases hk : k' = k <;> simp [lookupA, hk] at h ⊢
    · exact h
    · exact ih h

theorem lookupA_append_none {l m : List (α × β)} {k : α}
    (h : lookupA l k = none) : lookupA (l ++ m) k = lookupA m k := by
  induction l with
  | nil => simp
  | cons e rest ih =>
    obtain ⟨k', v'⟩ := e
    by_cases hk : k' = k <;> simp [lookupA, hk] at h ⊢
    exact ih h

theorem lookupA_eq_none_iff {l : List (α × β)} {k : α} :
    lookupA l k = none ↔ k ∉ l.map Prod.fst := by
  induction l with
  | nil => simp [lookupA]
  | cons e rest ih =>
    obtain ⟨k', v'⟩ := e
    by_cases hk : k' = k
    · subst hk
      simp [lookupA]
    · rw [lookupA, if_neg hk, ih, List.map_cons]
      simp only [List.mem_cons]
      constructor
      · intro hn hor
        rcases hor with h1 | h2
        · exact hk h1.symm
        · exact hn h2
      · intro hn h2
        exact hn (Or.inr h2)

theorem mem_keys_of_lookupA {l : List (α × β)} {k : α} {v : β}
    (h : lookupA l k = some v) : k ∈ l.map Prod.fst := by
  by_contra hk
  rw [← lookupA_eq_none_iff] at hk
  rw [hk] at h
  exact Option.noConfusion h

theorem lookupA_isSome_iff {l : List (α × β)} {k : α} :
    (lookupA l k).isSome ↔ k ∈ l.map Prod.fst := by
  constructor
  · intro h
    obtain ⟨v, hv⟩ := Option.isSome_iff_exists.mp h
    exact mem_keys_of_lookupA hv
  · intro h
    cases hl : lookupA l k with
    | none => exact absurd (lookupA_eq_none_iff.mp hl) (by simp [h])
    | some v => simp

theorem upsertA_of_not_mem {l : List (α × β)} {k : α} (v : β)
    (h : k ∉ l.map Prod.fst) : upsertA l k v = l ++ [(k, v)] := by
  induction l with
  | nil => simp [upsertA]
  | cons e rest ih =>
    obtain ⟨k', v'⟩ := e
    simp only [List.map_cons, List.mem_cons] at h
    push_neg at h
    simp [upsertA, Ne.symm h.1, ih h.2]

theorem lookupA_upsertA_self {l : List (α × β)} {k : α} {v : β} :
    lookupA (upsertA l k v) k = some v := by
  induction l with
  | nil => simp [upsertA, lookupA]
  | cons e rest ih =>
    obtain ⟨k', v'⟩ := e
    by_cases hk : k' = k <;> simp [upsertA, lookupA, hk, ih]

theorem lookupA_upsertA_ne {l : List (α × β)} {k k' : α} {v : β} (h : k' ≠ k) :
    lookupA (upsertA l k v) k' = lookupA l k' := by
  induction l with
  | nil => simp [upsertA, lookupA, Ne.symm h]
  | cons e rest ih =>
    obtain ⟨ka, va⟩ := e
    by_cases hk : ka = k
    · subst hk
      have hne : ¬ ka = k' := fun hh => h (hh.symm)
      simp [upsertA, lookupA, hne, Ne.symm h]
    · by_cases hk' : ka = k'
      · subst hk'
        simp [upsertA, lookupA, hk]
      · simp [upsertA, lookupA, hk, hk', ih]

theorem lookupA_pushA_self {l : List (α × List β)} {k : α} {b : β} :
    lookupA (pushA l k b) k = some ((lookupA l k).getD [] ++ [b]) := by
  induction l with
  | nil => simp [pushA, lookupA]
  | cons e rest ih =>
    obtain ⟨k', v'⟩ := e
    by_cases hk : k' = k <;> simp [pushA, lookupA, hk, ih]

theorem lookupA_pushA_ne {l : List (α × List β)} {k k' : α} {b : β} (h : k' ≠ k) :
    lookupA (pushA l k b) k' = lookupA l k' := by
  induction l with
  | nil => simp [pushA, lookupA, Ne.symm h]
  | cons e rest ih =>
    obtain ⟨ka, va⟩ := e
    by_cases hk : ka = k
    · subst hk
      have hne : ¬ ka = k' := fun hh => h (hh.symm)
      simp [pushA, lookupA, hne]
    · by_cases hk' : ka = k'
      · subst hk'
        simp [pushA, lookupA, hk]
      · simp [pushA, lookupA, hk, hk', ih]

theorem mem_of_lookupA_eq_some {l : List (α × β)} {k : α} {v : β}
    (h : lookupA l k = some v) : (k, v) ∈ l := by
  induction l with
  | nil => simp [lookupA] at h
  | cons e rest ih =>
    obtain ⟨k', v'⟩ := e
    by_cases hk : k' = k <;> simp [lookupA, hk] at h
    · simp [hk, h]
    · exact List.mem_cons_of_mem _ (ih h)

theorem keys_nodup_upsertA {l : List (α × β)} {k : α} {v : β}
    (h : (l.map Prod.fst).Nodup) : ((upsertA l k v).map Prod.fst).Nodup := by
  by_cases hk : k ∈ l.map Prod.fst
  · induction l with
    | nil => simp at hk
    | cons e rest ih =>
      obtain ⟨k', v'⟩ := e
      simp only [List.map_cons, List.nodup_cons] at h
      by_cases hkk : k' = k
      · simpa [upsertA, hkk] using h
      · simp only [List.map_cons, List.mem_cons] at hk
        rcases hk with hk | hk
        · exact absurd hk.symm hkk
        · have := ih h.2 hk
          simp only [upsertA, if_neg hkk, List.map_cons, List.nodup_cons]
          refine ⟨?_, this⟩
          intro hmem
          have : k' ∈ rest.map Prod.fst := by
            have hsub : ((upsertA rest k v).map Prod.fst) ⊆ rest.map Prod.fst ∪ [k] := by
              intro a ha
              by_cases hak : a = k
              · simp [hak]
              · have : lookupA (upsertA rest k v) a ≠ none := by
                  rw [Ne, lookupA_eq_none_iff]; simp [ha]
                rw [lookupA_upsertA_ne hak] at this
                rw [Ne, lookupA_eq_none_iff] at this
                simp [not_not.mp this]
            have := hsub hmem
            simp only [List.mem_union_iff, List.mem_singleton] at this
            rcases this with h' | h'
            · exact h'
            · exact absurd h' hkk
          exact h.1 this
  · rw [upsertA_of_not_mem v hk]
    simp only [List.map_append, List.map_cons, List.map_nil]
    rw [List.nodup_append]
    refine ⟨h, by simp, ?_⟩
    intro a ha hb
    simp only [List.mem_cons, List.not_mem_nil, or_false] at hb
    subst hb
    exact hk ha

theorem lookupA_of_mem_nodup {l : List (α × β)} {k : α} {v : β}
    (hmem : (k, v) ∈ l) (hnd : (l.map Prod.fst).Nodup) : lookupA l k = some v := by
  induction l with
  | nil => simp at hmem
  | cons e rest ih =>
    obtain ⟨k', v'⟩ := e
    simp only [List.map_cons, List.nodup_cons] at hnd
    rcases List.mem_cons.mp hmem with h | h
    · have h1 : k = k' := congrArg Prod.fst h
      have h2 : v = v' := congrArg Prod.snd h
      subst h1; subst h2
      simp [lookupA]
    · by_cases hk : k' = k
      · subst hk
        exact absurd (by simpa using List.mem_map_of_mem Prod.fst h) hnd.1
      · simp [lookupA, hk, ih h hnd.2]

end Assoc

/-- `usedRows` after claiming a row in the same lane. -/
theorem usedRows_pushA_self (u : List (Nat × List Nat)) (lane r : Nat) :
    usedRows (pushA u lane r) lane = usedRows u lane ++ [r] := by
  simp [usedRows, lookupA_pushA_self]

/-- `usedRows` of another lane is untouched by a claim. -/
theorem usedRows_pushA_ne (u : List (Nat × List Nat)) {lane lane' : Nat} (r : Nat)
    (h : lane' ≠ lane) : usedRows (pushA u lane r) lane' = usedRows u lane' := by
  simp [usedRows, lookupA_pushA_ne h]

/-!  ### The row-collision loop  -/

theorem resolveRowAux_ge (used : List Nat) :
    ∀ f row, row ≤ resolveRowAux used f row := by
  intro f
  induction f with
  | zero => intro row; simp [resolveRowAux]
  | succ f ih =>
    intro row
    by_cases h : row ∈ used <;> simp only [resolveRowAux, h, if_pos, if_neg, ite_true, ite_false]
    · exact le_trans (Nat.le_succ row) (ih (row + 1))
    · exact le_refl row

theorem resolveRowAux_free (used : List Nat) :
    ∀ f row, (∃ m, row ≤ m ∧ m ≤ row + f ∧ m ∉ used) →
      resolveRowAux used f row ∉ used := by
  intro f
  induction f with
  | zero =>
    intro row h
    obtain ⟨m, h1, h2, h3⟩ := h
    have hm : m = row := le_antisymm (by simpa using h2) h1
    subst hm
    simpa [resolveRowAux] using h3
  | succ f ih =>
    intro row h
    obtain ⟨m, h1, h2, h3⟩ := h
    by_cases h : row ∈ used
    · simp only [resolveRowAux, if_pos h]
      refine ih (row + 1) ⟨m, ?_, by omega, h3⟩
      rcases Nat.eq_or_lt_of_le h1 with rfl | hlt
      · exact absurd h h3
      · exact hlt
    · simp only [resolveRowAux, if_neg h]
      exact h

/-- Pigeonhole: among `used.length + 1` consecutive candidates some row is
free. -/
theorem exists_free_row (used : List Nat) (row : Nat) :
    ∃ m, row ≤ m ∧ m ≤ row + used.length ∧ m ∉ used := by
  by_contra hall
  push_neg at hall
  have hsub : (Finset.range (used.length + 1)).image (fun k => row + k) ⊆ used.toFinset := by
    intro a ha
    simp only [Finset.mem_image, Finset.mem_range] at ha
    obtain ⟨k, hk, rfl⟩ := ha
    have := hall (row + k) (Nat.le_add_right _ _) (by omega)
    simpa using this
  have hcard : used.length + 1 ≤ used.toFinset.card := by
    have h1 : ((Finset.range (used.length + 1)).image (fun k => row + k)).card
        = used.length + 1 := by
      rw [Finset.card_image_of_injective _ (fun a b => by omega)]
      simp
    calc used.length + 1 = _ := h1.symm
      _ ≤ used.toFinset.card := Finset.card_le_card hsub
  have := used.toFinset_card_le
  omega

theorem resolveRow_not_mem (used : List Nat) (startRow : Nat) :
    resolveRow used startRow ∉ used :=
  resolveRowAux_free used (used.length + 1) startRow
    (by
      obtain ⟨m, h1, h2, h3⟩ := exists_free_row used startRow
      exact ⟨m, h1, by omega, h3⟩)

theorem resolveRow_ge (used : List Nat) (startRow : Nat) :
    startRow ≤ resolveRow used startRow :=
  resolveRowAux_ge used _ startRow

theorem resolveRowAux_min (used : List Nat) :
    ∀ f row j, row ≤ j → j < resolveRowAux used f row → j ∈ used := by
  intro f
  induction f with
  | zero =>
    intro row j h1 h2
    simp only [resolveRowAux] at h2
    omega
  | succ f ih =>
    intro row j h1 h2
    by_cases h : row ∈ used <;> simp only [resolveRowAux, h, ite_true, ite_false] at h2
    · rcases Nat.eq_or_lt_of_le h1 with rfl | hlt
      · exact h
      · exact ih (row + 1) j hlt h2
    · omega

/-- The resolved row is exactly what the source's `while` loop computes:
the least free row at or above the request. -/
theorem resolveRow_min (used : List Nat) (startRow j : Nat) (h1 : startRow ≤ j)
    (h2 : j < resolveRow used startRow) : j ∈ used :=
  resolveRowAux_min used _ startRow j h1 h2

theorem resolveRow_of_not_mem {used : List Nat} {startRow : Nat}
    (h : startRow ∉ used) : resolveRow used startRow = startRow := by
  simp [resolveRow, resolveRowAux, h]

/-!  ### The Normalizer: sortedness, stability, ordinal fill  -/

instance : IsTotal CapsuleVersion leCreated :=
  ⟨fun a b => Nat.le_total a.created_at b.created_at⟩

instance : IsTrans CapsuleVersion leCreated :=
  ⟨fun _ _ _ h1 h2 => Nat.le_trans h1 h2⟩

theorem sorted_sortVersions (versions : List CapsuleVersion) :
    List.Pairwise leCreated (sortVersions versions) :=
  List.sorted_insertionSort leCreated versions

theorem perm_sortVersions (versions : List CapsuleVersion) :
    (sortVersions versions).Perm versions :=
  List.perm_insertionSort leCreated versions

/-- Inserting a record moves it past strictly-earlier records only, so the
per-timestamp subsequences are untouched. -/
theorem filter_orderedInsert_created (t : Nat) (a : CapsuleVersion) :
    ∀ l : List CapsuleVersion,
      (List.orderedInsert leCreated a l).filter (fun v => decide (v.created_at = t))
        = if a.created_at = t
            then a :: l.filter (fun v => decide (v.created_at = t))
            else l.filter (fun v => decide (v.created_at = t)) := by
  intro l
  induction l with
  | nil =>
    by_cases h : a.created_at = t <;> simp [List.orderedInsert, h]
  | cons b l ih =>
    by_cases hab : leCreated a b
    · by_cases h : a.created_at = t <;> simp [List.orderedInsert, hab, h]
    · have hba : b.created_at < a.created_at := by
        simpa [leCreated, Nat.not_le] using hab
      by_cases h : a.created_at = t
      · have hbt : ¬ b.created_at = t := by omega
        simp [List.orderedInsert, hab, h, hbt, ih]
      · by_cases hbt : b.created_at = t <;>
          simp [List.orderedInsert, hab, h, hbt, ih]

/-- Stability of the chronological sort: for every timestamp, the records
carrying it come out in their input order. -/
theorem filter_sortVersions_created (versions : List CapsuleVersion) (t : Nat) :
    (sortVersions versions).filter (fun v => decide (v.created_at = t))
      = versions.filter (fun v => decide (v.created_at = t)) := by
  induction versions with
  | nil => rfl
  | cons a l ih =>
    have hcons : sortVersions (a :: l) = List.orderedInsert leCreated a (sortVersions l) := rfl
    rw [hcons, filter_orderedInsert_created, ih]
    by_cases h : a.created_at = t <;> simp [h]

theorem fillOrdinal_version_id (i : Nat) (v : CapsuleVersion) :
    (fillOrdinal i v).version_id = v.version_id := rfl

theorem fillOrdinal_parent (i : Nat) (v : CapsuleVersion) :
    (fillOrdinal i v).parent_version_id = v.parent_version_id := rfl

theorem fillOrdinal_created (i : Nat) (v : CapsuleVersion) :
    (fillOrdinal i v).created_at = v.created_at := rfl

theorem parentKey_fillOrdinal (i : Nat) (v : CapsuleVersion) :
    parentKey (fillOrdinal i v) = parentKey v := rfl

theorem fillOrdinals_length (l : List CapsuleVersion) :
    ∀ i, (fillOrdinals i l).length = l.length := by
  induction l with
  | nil => intro i; rfl
  | cons v rest ih => intro i; simp [fillOrdinals, ih]

theorem fillOrdinals_getElem? (l : List CapsuleVersion) :
    ∀ i j, (fillOrdinals i l)[j]? = (l[j]?).map (fillOrdinal (i + j)) := by
  induction l with
  | nil => intro i j; simp [fillOrdinals]
  | cons v rest ih =>
    intro i j
    cases j with
    | zero => simp [fillOrdinals]
    | succ j =>
      have harith : i + 1 + j = i + (j + 1) := by omega
      simp [fillOrdinals, ih (i + 1) j, harith]

theorem map_created_fillOrdinals (l : List CapsuleVersion) :
    ∀ i, (fillOrdinals i l).map (fun v => v.created_at)
      = l.map (fun v => v.created_at) := by
  induction l with
  | nil => intro i; rfl
  | cons v rest ih => intro i; simp [fillOrdinals, fillOrdinal, ih]

/-- The normalized output is chronologically sorted. -/
theorem pairwise_created_sortedVersions (versions : List CapsuleVersion) :
    List.Pairwise (fun a b : CapsuleVersion => a.created_at ≤ b.created_at)
      (sortedVersions versions) := by
  have h1 : List.Pairwise leCreated (sortVersions versions) :=
    sorted_sortVersions versions
  have h2 : List.Pairwise (fun a b : Nat => a ≤ b)
      ((sortVersions versions).map (fun v => v.created_at)) :=
    List.pairwise_map.mpr h1
  rw [← map_created_fillOrdinals (sortVersions versions) 0] at h2
  exact List.pairwise_map.mp h2

/-- Strict chronological order, used to pin the sort down when all
timestamps are distinct. -/
def ltCreated (a b : CapsuleVersion) : Prop :=
  a.created_at < b.created_at

instance : IsAntisymm CapsuleVersion ltCreated :=
  ⟨fun _ _ h1 h2 => absurd (Nat.lt_trans h1 h2) (Nat.lt_irrefl _)⟩

theorem pairwise_lt_of_le_of_nodup {l : List CapsuleVersion}
    (hd : (l.map (fun v => v.created_at)).Nodup)
    (hs : List.Pairwise leCreated l) : List.Pairwise ltCreated l := by
  have hne : List.Pairwise
      (fun a b : CapsuleVersion => a.created_at ≠ b.created_at) l :=
    List.pairwise_map.mp hd
  exact (hs.and hne).imp (fun h => Nat.lt_of_le_of_ne h.1 h.2)

/-- With pairwise-distinct timestamps, the chronological sort is the same
for any presentation order of the batch. -/
theorem sortVersions_eq_of_perm {l1 l2 : List CapsuleVersion}
    (hd : (l1.map (fun v => v.created_at)).Nodup) (hp : l1.Perm l2) :
    sortVersions l1 = sortVersions l2 := by
  have hperm : (sortVersions l1).Perm (sortVersions l2) :=
    (perm_sortVersions l1).trans (hp.trans (perm_sortVersions l2).symm)
  have hd1 : ((sortVersions l1).map (fun v => v.created_at)).Nodup :=
    (((perm_sortVersions l1).map (fun v => v.created_at)).nodup_iff).mpr hd
  have hd2 : ((sortVersions l2).map (fun v => v.created_at)).Nodup :=
    ((hperm.map (fun v => v.created_at)).nodup_iff).mp hd1
  exact List.eq_of_perm_of_sorted hperm
    (pairwise_lt_of_le_of_nodup hd1 (sorted_sortVersions l1))
    (pairwise_lt_of_le_of_nodup hd2 (sorted_sortVersions l2))

theorem layout_congr {l1 l2 : List CapsuleVersion}
    (h : sortedVersions l1 = sortedVersions l2) : layout l1 = layout l2 := by
  simp only [layout, h]

/-!  ### Claims C6, C7, C9  -/

/-- Claim C9, counterexample: the Normalizer does not keep a present
ordinal of `0` — JavaScript `v.version_number || (idx + 1)` treats `0` as
absent, so the output ordinal is `1`, not the input ordinal `0`. -/
theorem C9_counterexample :
    sortedVersions [⟨"a", none, 0, some 0⟩] = [⟨"a", none, 0, some 1⟩]
    ∧ (⟨"a", none, 0, some 0⟩ : CapsuleVersion).version_number = some 0
    ∧ (some 1 : Option Nat) ≠ some 0 :=
  ⟨rfl, rfl, by decide⟩

/-- Claim C9 (amended): the Normalizer outputs the records sorted
ascending by `created_at`, equal timestamps retaining their relative
input order (stable sort), and the record at sorted index `j` keeps all
identifying fields, keeps its input ordinal whenever that ordinal is
present *and nonzero*, and receives ordinal `j + 1` whenever the input
ordinal is absent or zero (both JavaScript-falsy). -/
theorem C9_normalizer (versions : List CapsuleVersion) :
    List.Pairwise (fun a b : CapsuleVersion => a.created_at ≤ b.created_at)
      (sortedVersions versions)
    ∧ (∀ t, (sortVersions versions).filter (fun v => decide (v.created_at = t))
        = versions.filter (fun v => decide (v.created_at = t)))
    ∧ (sortedVersions versions).length = versions.length
    ∧ (∀ j v, (sortVersions versions)[j]? = some v →
        ∃ w, (sortedVersions versions)[j]? = some w
          ∧ w.version_id = v.version_id
          ∧ w.parent_version_id = v.parent_version_id
          ∧ w.created_at = v.created_at
          ∧ (∀ n, v.version_number = some n → n ≠ 0 → w.version_number = some n)
          ∧ ((v.version_number = none ∨ v.version_number = some 0) →
              w.version_number = some (j + 1))) := by
  refine ⟨pairwise_created_sortedVersions versions,
          filter_sortVersions_created versions, ?_, ?_⟩
  · rw [sortedVersions, fillOrdinals_length]
    exact (perm_sortVersions versions).length_eq
  · intro j v hv
    refine ⟨fillOrdinal j v, ?_, rfl, rfl, rfl, ?_, ?_⟩
    · rw [sortedVersions, fillOrdinals_getElem? _ 0 j, hv]
      simp
    · intro n hn hn0
      simp [fillOrdinal, hn, hn0]
    · intro h
      rcases h with h | h <;> simp [fillOrdinal, h]

/-- Claim C9, witness: the amended theorem applied to the concrete batch
`[b@7 ordinal 3, a@3 no ordinal]`. -/
theorem C9_witness :
    (sortVersions [⟨"b", none, 7, some 3⟩, ⟨"a", none, 3, none⟩])[0]?
      = some ⟨"a", none, 3, none⟩
    ∧ (∃ w, (sortedVersions [⟨"b", none, 7, some 3⟩, ⟨"a", none, 3, none⟩])[0]? = some w
        ∧ w.version_id = "a"
        ∧ w.parent_version_id = none
        ∧ w.created_at = 3
        ∧ (∀ n, (none : Option Nat) = some n → n ≠ 0 → w.version_number = some n)
        ∧ (((none : Option Nat) = none ∨ (none : Option Nat) = some 0) →
            w.version_number = some 1)) :=
  ⟨by decide,
   (C9_normalizer [⟨"b", none, 7, some 3⟩, ⟨"a", none, 3, none⟩]).2.2.2 0
     ⟨"a", none, 3, none⟩ (by decide)⟩

/-- Claim C7, counterexample: with equal timestamps the stable sort keeps
the presentation order, so permuting the input moves node `a` from lane 0
to lane 1 — the positions map is not permutation-invariant. -/
theorem C7_counterexample :
    ([⟨"a", none, 5, none⟩, ⟨"b", none, 5, none⟩] : List CapsuleVersion).Perm
      [⟨"b", none, 5, none⟩, ⟨"a", none, 5, none⟩]
    ∧ lookupA (positionsOf (layout [⟨"a", none, 5, none⟩, ⟨"b", none, 5, none⟩])) "a"
      ≠ lookupA (positionsOf (layout [⟨"b", none, 5, none⟩, ⟨"a", none, 5, none⟩])) "a" := by
  refine ⟨?_, by decide⟩
  exact List.Perm.swap _ _ _

/-- Claim C7 (amended): when the timestamps of the batch are pairwise
distinct, the layout — positions map included — is identical for every
permutation of the input. -/
theorem C7_perm_invariant (l1 l2 : List CapsuleVersion)
    (hd : (l1.map (fun v => v.created_at)).Nodup) (hp : l1.Perm l2) :
    layout l1 = layout l2 :=
  layout_congr (by rw [sortedVersions, sortedVersions, sortVersions_eq_of_perm hd hp])

/-- Claim C7, witness: the amended theorem applied to a concrete two-root
batch with distinct timestamps and its reversal. -/
theorem C7_witness :
    (([⟨"a", none, 1, none⟩, ⟨"b", none, 2, none⟩] :
        List CapsuleVersion).map (fun v => v.created_at)).Nodup
    ∧ ([⟨"a", none, 1, none⟩, ⟨"b", none, 2, none⟩] : List CapsuleVersion).Perm
        [⟨"b", none, 2, none⟩, ⟨"a", none, 1, none⟩]
    ∧ layout [⟨"a", none, 1, none⟩, ⟨"b", none, 2, none⟩]
        = layout [⟨"b", none, 2, none⟩, ⟨"a", none, 1, none⟩] :=
  ⟨by decide, by decide, C7_perm_invariant _ _ (by decide) (by decide)⟩

/-- Claim C6: contrary to the required hardening, the layout does not
detect a parent cycle.  On a pure two-cycle the cycle's nodes are simply
unreachable from any root, so the code terminates and silently returns a
structurally "successful" layout whose positions map omits both ids — no
structural-integrity error is ever raised. -/
theorem C6_cycle_no_error :
    layout [⟨"p", some "q", 0, none⟩, ⟨"q", some "p", 1, none⟩]
      = some ⟨[], 0, 0⟩
    ∧ "p" ∈ idsOf [⟨"p", some "q", 0, none⟩, ⟨"q", some "p", 1, none⟩]
    ∧ lookupA (positionsOf
        (layout [⟨"p", some "q", 0, none⟩, ⟨"q", some "p", 1, none⟩])) "p" = none :=
  ⟨rfl, by decide, rfl⟩

/-!  ### Generic preservation through the traversal  -/

/-- Preserved relations lift through the children loop, provided they are
lifted by the placement call `go` and by the `laneNextRow` registration
step. -/
theorem childLoop_pres (R : LayoutState → LayoutState → Prop)
    (htrans : ∀ a b c, R a b → R b c → R a c)
    (hrefl : ∀ a, R a a)
    (hbranch : ∀ s lane' row',
      R s { s with laneNextRow := upsertA s.laneNextRow lane' row' })
    (go : String → Nat → Nat → LayoutState → Option LayoutState)
    (hgo : ∀ c l r s s', go c l r s = some s' → R s s') :
    ∀ cs idx lane row st st',
      childLoop go lane row cs idx st = some st' → R st st' := by
  intro cs
  induction cs with
  | nil =>
    intro idx lane row st st' h
    simp only [childLoop] at h
    cases h
    exact hrefl st
  | cons c rest ih =>
    intro idx lane row st st' h
    by_cases hidx : idx = 0
    · simp only [childLoop, hidx, ite_true] at h
      split at h
      · exact Option.noConfusion h
      · next st2 hc =>
          exact htrans _ _ _ (hgo _ _ _ _ _ hc) (ih _ _ _ _ _ h)
    · simp only [childLoop, hidx, ite_false] at h
      split at h
      · exact Option.noConfusion h
      · next st2 hc =>
          exact htrans _ _ _ (hbranch st _ _)
            (htrans _ _ _ (hgo _ _ _ _ _ hc) (ih _ _ _ _ _ h))

/-- Preserved relations lift through a whole placement recursion. -/
theorem assignPosition_pres (cm : List (String × List String))
    (R : LayoutState → LayoutState → Prop)
    (htrans : ∀ a b c, R a b → R b c → R a c)
    (hrefl : ∀ a, R a a)
    (hplace : ∀ s v lane startRow, R s (placeAt s v lane startRow))
    (hbranch : ∀ s lane' row',
      R s { s with laneNextRow := upsertA s.laneNextRow lane' row' }) :
    ∀ f v lane startRow st st',
      assignPosition cm f v lane startRow st = some st' → R st st' := by
  intro f
  induction f with
  | zero => intro v lane startRow st st' h; cases h
  | succ f ih =>
    intro v lane startRow st st' h
    simp only [assignPosition] at h
    have r2 := childLoop_pres R htrans hrefl hbranch (assignPosition cm f)
      (fun c l r s s' hh => ih c l r s s' hh) _ _ _ _ _ _ h
    exact htrans _ _ _ (hplace st v lane startRow) r2

/-- Preserved relations lift through the fold over the roots. -/
theorem runRoots_pres (cm : List (String × List String)) (fuel : Nat)
    (R : LayoutState → LayoutState → Prop)
    (htrans : ∀ a b c, R a b → R b c → R a c)
    (hrefl : ∀ a, R a a)
    (hplace : ∀ s v lane startRow, R s (placeAt s v lane startRow))
    (hbranch : ∀ s lane' row',
      R s { s with laneNextRow := upsertA s.laneNextRow lane' row' }) :
    ∀ rts idx st st', runRoots cm fuel rts idx st = some st' → R st st' := by
  intro rts
  induction rts with
  | nil =>
    intro idx st st' h
    simp only [runRoots] at h
    cases h
    exact hrefl st
  | cons r rest ih =>
    intro idx st st' h
    simp only [runRoots] at h
    cases hc : assignPosition cm fuel r.version_id idx 0 st with
    | none => rw [hc] at h; cases h
    | some st2 =>
      rw [hc] at h
      exact htrans _ _ _
        (assignPosition_pres cm R htrans hrefl hplace hbranch _ _ _ _ _ _ hc)
        (ih (idx + 1) st2 st' h)

/-- Unpacking a successful layout into the final traversal state. -/
theorem layout_eq_some {versions : List CapsuleVersion} {res : LayoutResult}
    (h : layout versions = some res) :
    ∃ st, runRoots (buildChildrenMap (sortedVersions versions))
        (layoutFuel (sortedVersions versions))
        ((sortedVersions versions).filter (fun v => isRoot (sortedVersions versions) v))
        0 initState = some st
      ∧ res = ⟨st.positions,
          (st.positions.map (fun kp => kp.2.lane)).foldr max 0,
          (st.positions.map (fun kp => kp.2.row)).foldr max 0⟩ := by
  by_cases he : (sortedVersions versions).isEmpty
  · simp only [layout, he, if_pos, ite_true] at h
    cases h
  · simp only [layout, he, ite_false] at h
    cases hr : runRoots (buildChildrenMap (sortedVersions versions))
        (layoutFuel (sortedVersions versions))
        ((sortedVersions versions).filter (fun v => isRoot (sortedVersions versions) v))
        0 initState with
    | none => rw [hr] at h; cases h
    | some st =>
      rw [hr] at h
      cases h
      exact ⟨st, rfl, rfl⟩

/-!  ### Claim C1: per-lane row uniqueness  -/

/-- The traversal invariant behind per-lane row uniqueness: every recorded
position's row is claimed in its lane, and distinct recorded ids never
share a (lane, row) pair. -/
def StInv (st : LayoutState) : Prop :=
  (∀ k p, lookupA st.positions k = some p → p.row ∈ usedRows st.laneUsage p.lane)
  ∧ (∀ k1 k2 p1 p2, lookupA st.positions k1 = some p1 →
      lookupA st.positions k2 = some p2 → k1 ≠ k2 → p1.lane = p2.lane →
      p1.row ≠ p2.row)

theorem stInv_placeAt {st : LayoutState} (vId : String) (lane startRow : Nat)
    (h : StInv st) : StInv (placeAt st vId lane startRow) := by
  obtain ⟨h1, h2⟩ := h
  have hfree : resolvedRowAt st lane startRow ∉ usedRows st.laneUsage lane :=
    resolveRow_not_mem _ _
  have hval : ∀ k p, lookupA (placeAt st vId lane startRow).positions k = some p →
      (k ≠ vId ∧ lookupA st.positions k = some p) ∨
      (p.lane = lane ∧ p.row = resolvedRowAt st lane startRow) := by
    intro k p hk
    simp only [placeAt] at hk
    by_cases hkv : k = vId
    · rw [hkv, lookupA_upsertA_self] at hk
      injection hk with hk
      right
      rw [← hk]
      exact ⟨rfl, rfl⟩
    · rw [lookupA_upsertA_ne hkv] at hk
      exact Or.inl ⟨hkv, hk⟩
  have husage : ∀ lane', usedRows (placeAt st vId lane startRow).laneUsage lane' =
      if lane' = lane
        then usedRows st.laneUsage lane' ++ [resolvedRowAt st lane startRow]
        else usedRows st.laneUsage lane' := by
    intro lane'
    by_cases hl : lane' = lane
    · rw [hl]
      simp only [placeAt, ite_true]
      exact usedRows_pushA_self _ _ _
    · simp only [placeAt, hl, ite_false]
      exact usedRows_pushA_ne _ _ hl
  constructor
  · intro k p hk
    rcases hval k p hk with ⟨_, hold⟩ | ⟨hl, hr⟩
    · have := h1 k p hold
      rw [husage]
      by_cases hpl : p.lane = lane
      · rw [if_pos hpl]
        exact List.mem_append_left _ this
      · rw [if_neg hpl]
        exact this
    · rw [husage, hl, if_pos rfl, hr]
      exact List.mem_append_right _ (List.mem_singleton.mpr rfl)
  · intro k1 k2 p1 p2 hk1 hk2 hne hlane
    rcases hval k1 p1 hk1 with ⟨hne1, hold1⟩ | ⟨hl1, hr1⟩ <;>
      rcases hval k2 p2 hk2 with ⟨hne2, hold2⟩ | ⟨hl2, hr2⟩
    · exact h2 k1 k2 p1 p2 hold1 hold2 hne hlane
    · have hmem := h1 k1 p1 hold1
      rw [hlane, hl2] at hmem
      intro hrow
      rw [hrow, hr2] at hmem
      exact hfree hmem
    · have hmem := h1 k2 p2 hold2
      rw [← hlane, hl1] at hmem
      intro hrow
      rw [← hrow, hr1] at hmem
      exact hfree hmem
    · -- both would be the freshly written key, impossible for distinct ids
      exfalso
      simp only [placeAt] at hk1 hk2
      by_cases h1v : k1 = vId
      · have h2v : k2 ≠ vId := fun hh => hne (h1v.trans hh.symm)
        rw [lookupA_upsertA_ne h2v] at hk2
        have hmem := h1 k2 p2 hk2
        rw [hl2] at hmem
        rw [hr2] at hmem
        exact hfree hmem
      · rw [lookupA_upsertA_ne h1v] at hk1
        have hmem := h1 k1 p1 hk1
        rw [hl1] at hmem
        rw [hr1] at hmem
        exact hfree hmem

theorem stInv_branch {st : LayoutState} (lane' row' : Nat) (h : StInv st) :
    StInv { st with laneNextRow := upsertA st.laneNextRow lane' row' } := h

theorem stInv_initState : StInv initState := by
  constructor
  · intro k p hk
    cases hk
  · intro k1 k2 p1 p2 hk1 hk2 hne hlane
    cases hk1

/-- Claim C1: whenever the layout computation terminates, no two distinct
placed nodes in the same lane are assigned the same row. -/
theorem C1_per_lane_row_unique (versions : List CapsuleVersion)
    (res : LayoutResult) (h : layout versions = some res) :
    ∀ id1 id2 p1 p2, lookupA res.positions id1 = some p1 →
      lookupA res.positions id2 = some p2 → id1 ≠ id2 → p1.lane = p2.lane →
      p1.row ≠ p2.row := by
  obtain ⟨st, hrun, hres⟩ := layout_eq_some h
  have hinv : StInv st := by
    refine runRoots_pres _ _ (fun a b => StInv a → StInv b)
      (fun a b c hab hbc ha => hbc (hab ha)) (fun a ha => ha)
      (fun s v lane startRow hs => stInv_placeAt v lane startRow hs)
      (fun s lane' row' hs => stInv_branch lane' row' hs)
      _ _ _ _ hrun stInv_initState
  subst hres
  exact fun id1 id2 p1 p2 hk1 hk2 hne hlane =>
    hinv.2 id1 id2 p1 p2 hk1 hk2 hne hlane

/-- Claim C1, witness: the chain `a ← b` places both in lane 0, at the
distinct rows 0 and 1. -/
theorem C1_witness :
    layout [⟨"a", none, 0, none⟩, ⟨"b", some "a", 1, none⟩]
      = some ⟨[("a", ⟨0, 0, 0, 0⟩), ("b", ⟨0, 80, 0, 1⟩)], 0, 1⟩
    ∧ (0 : Nat) ≠ (1 : Nat) :=
  ⟨rfl, by
    have h := C1_per_lane_row_unique
      [⟨"a", none, 0, none⟩, ⟨"b", some "a", 1, none⟩]
      ⟨[("a", ⟨0, 0, 0, 0⟩), ("b", ⟨0, 80, 0, 1⟩)], 0, 1⟩ rfl
      "a" "b" ⟨0, 0, 0, 0⟩ ⟨0, 80, 0, 1⟩ (by decide) (by decide) (by decide) rfl
    exact h⟩

/-!  ### The visited set of one recursive call  -/

/-- Sequential descent over a child list, abstracted over the one-node
descent `go`; `none` when any child's descent runs out of fuel. -/
def descListLoop (go : String → Option (List String)) :
    List String → Option (List String)
  | [] => some []
  | c :: rest =>
    match go c, descListLoop go rest with
    | some d, some ds => some (d ++ ds)
    | _, _ => none

/-- The ids `assignPosition cm fuel v` visits, in placement order:
`none` exactly when that call would run out of fuel. -/
def descL (cm : List (String × List String)) : Nat → String → Option (List String)
  | 0, _ => none
  | f + 1, v =>
    match descListLoop (descL cm f) (childrenOf cm v) with
    | none => none
    | some ds => some (v :: ds)

theorem mem_of_descListLoop {go : String → Option (List String)}
    {cs : List String} {ds : List String}
    (h : descListLoop go cs = some ds) :
    ∀ c ∈ cs, ∃ dc, go c = some dc ∧ ∀ x ∈ dc, x ∈ ds := by
  induction cs generalizing ds with
  | nil => intro c hc; cases hc
  | cons c rest ih =>
    simp only [descListLoop] at h
    cases hgo : go c with
    | none => rw [hgo] at h; cases h
    | some dc =>
      rw [hgo] at h
      cases hrest : descListLoop go rest with
      | none => rw [hrest] at h; cases h
      | some drest =>
        rw [hrest] at h
        injection h with h
        intro c' hc'
        rcases List.mem_cons.mp hc' with rfl | hmem
        · exact ⟨dc, hgo, fun x hx => by rw [← h]; exact List.mem_append_left _ hx⟩
        · obtain ⟨d', hd', hsub⟩ := ih hrest c' hmem
          exact ⟨d', hd', fun x hx => by
            rw [← h]; exact List.mem_append_right _ (hsub x hx)⟩

/-- Every element of a sequential descent lies in some child's descent. -/
theorem descListLoop_mem_split {go : String → Option (List String)}
    {cs : List String} {ds : List String}
    (h : descListLoop go cs = some ds) :
    ∀ k ∈ ds, ∃ c ∈ cs, ∃ dc, go c = some dc ∧ k ∈ dc ∧ ∀ x ∈ dc, x ∈ ds := by
  induction cs generalizing ds with
  | nil =>
    simp only [descListLoop] at h
    injection h with h
    rw [← h]
    intro k hk
    cases hk
  | cons c rest ih =>
    simp only [descListLoop] at h
    cases hgo : go c with
    | none => rw [hgo] at h; cases h
    | some d1 =>
      rw [hgo] at h
      cases hrest : descListLoop go rest with
      | none => rw [hrest] at h; cases h
      | some drest =>
        rw [hrest] at h
        injection h with h
        rw [← h]
        intro k hk
        rcases List.mem_append.mp hk with hm | hm
        · exact ⟨c, List.mem_cons_self _ _, d1, hgo, hm,
            fun x hx => List.mem_append_left _ hx⟩
        · obtain ⟨c0, hc0, dc, h1, h2, h3⟩ := ih hrest k hm
          exact ⟨c0, List.mem_cons_of_mem _ hc0, dc, h1, h2,
            fun x hx => List.mem_append_right _ (h3 x hx)⟩

theorem head_mem_descL {cm : List (String × List String)} {f : Nat} {v : String}
    {ds : List String} (h : descL cm f v = some ds) : v ∈ ds := by
  cases f with
  | zero => cases h
  | succ f =>
    simp only [descL] at h
    cases hd : descListLoop (descL cm f) (childrenOf cm v) with
    | none => rw [hd] at h; cases h
    | some ds0 => rw [hd] at h; injection h with h; rw [← h]; exact List.mem_cons_self _ _

/-- The visited set is closed under taking children. -/
theorem descL_closed {cm : List (String × List String)} :
    ∀ f v ds, descL cm f v = some ds →
      ∀ k ∈ ds, ∀ c ∈ childrenOf cm k, c ∈ ds := by
  intro f
  induction f with
  | zero => intro v ds h; cases h
  | succ f ih =>
    intro v ds h k hk c hc
    simp only [descL] at h
    cases hd : descListLoop (descL cm f) (childrenOf cm v) with
    | none => rw [hd] at h; cases h
    | some ds0 =>
      rw [hd] at h
      injection h with h
      subst h
      rcases List.mem_cons.mp hk with rfl | hk0
      · -- k = v: its children all head their own descents inside ds0
        obtain ⟨dc, hdc, hsub⟩ := mem_of_descListLoop hd c hc
        exact List.mem_cons_of_mem _ (hsub c (head_mem_descL hdc))
      · -- k sits inside some child's descent; recurse
        obtain ⟨c0, _, dc, h1, h2, h3⟩ := descListLoop_mem_split hd k hk0
        exact List.mem_cons_of_mem _ (h3 c (ih c0 dc h1 k h2 c hc))

/-- Fuel exhaustion of the placement call and of its visited-set mirror
coincide. -/
theorem assign_isSome_spec (cm : List (String × List String)) :
    ∀ f, (∀ v lane startRow st,
        (assignPosition cm f v lane startRow st).isSome ↔ (descL cm f v).isSome)
      ∧ (∀ cs idx lane row st,
        (childLoop (assignPosition cm f) lane row cs idx st).isSome
          ↔ (descListLoop (descL cm f) cs).isSome) := by
  intro f
  induction f with
  | zero =>
    constructor
    · intro v lane startRow st
      simp [assignPosition, descL]
    · intro cs
      induction cs with
      | nil => intro idx lane row st; simp [childLoop, descListLoop]
      | cons c rest ihc =>
        intro idx lane row st
        simp [childLoop, descListLoop, assignPosition, descL]
  | succ f ih =>
    have hP : ∀ v lane startRow st,
        (assignPosition cm (f + 1) v lane startRow st).isSome
          ↔ (descL cm (f + 1) v).isSome := by
      intro v lane startRow st
      simp only [assignPosition, descL]
      rw [ih.2 (childrenOf cm v) 0 lane (resolvedRowAt st lane startRow)
        (placeAt st v lane startRow)]
      cases hd : descListLoop (descL cm f) (childrenOf cm v) <;> simp [hd]
    refine ⟨hP, ?_⟩
    intro cs
    induction cs with
    | nil => intro idx lane row st; simp [childLoop, descListLoop]
    | cons c rest ihc =>
      intro idx lane row st
      by_cases hidx : idx = 0
      · subst hidx
        simp only [childLoop, descListLoop, ite_true]
        cases hc : assignPosition cm (f + 1) c lane (row + 1) st with
        | none =>
          have := hP c lane (row + 1) st
          rw [hc] at this
          cases hd : descL cm (f + 1) c with
          | none => simp
          | some d1 => rw [hd] at this; simp at this
        | some st2 =>
          have := hP c lane (row + 1) st
          rw [hc] at this
          cases hd : descL cm (f + 1) c with
          | none => rw [hd] at this; simp at this
          | some d1 =>
            have h2 := ihc 1 lane row st2
            cases hrest : descListLoop (descL cm (f + 1)) rest with
            | none =>
              rw [hrest] at h2
              have h3 : childLoop (assignPosition cm (f + 1)) lane row rest 1 st2
                  = none := Option.not_isSome_iff_eq_none.mp (by simp [h2])
              simp [h3]
            | some drest =>
              rw [hrest] at h2
              have h4 : (childLoop (assignPosition cm (f + 1)) lane row rest
                  1 st2).isSome := by simp [h2]
              simp [h4]
      · simp only [childLoop, descListLoop, hidx, ite_false]
        cases hc : assignPosition cm (f + 1) c st.laneNextRow.length (row + 1)
            { st with laneNextRow :=
                upsertA st.laneNextRow st.laneNextRow.length (row + 1) } with
        | none =>
          have := hP c st.laneNextRow.length (row + 1)
            { st with laneNextRow :=
                upsertA st.laneNextRow st.laneNextRow.length (row + 1) }
          rw [hc] at this
          cases hd : descL cm (f + 1) c with
          | none => simp
          | some d1 => rw [hd] at this; simp at this
        | some st2 =>
          have := hP c st.laneNextRow.length (row + 1)
            { st with laneNextRow :=
                upsertA st.laneNextRow st.laneNextRow.length (row + 1) }
          rw [hc] at this
          cases hd : descL cm (f + 1) c with
          | none => rw [hd] at this; simp at this
          | some d1 =>
            have h2 := ihc (idx + 1) lane row st2
            cases hrest : descListLoop (descL cm (f + 1)) rest with
            | none =>
              rw [hrest] at h2
              have h3 : childLoop (assignPosition cm (f + 1)) lane row rest (idx + 1) st2
                  = none := Option.not_isSome_iff_eq_none.mp (by simp [h2])
              simp [h3]
            | some drest =>
              rw [hrest] at h2
              have h4 : (childLoop (assignPosition cm (f + 1)) lane row rest
                  (idx + 1) st2).isSome := by simp [h2]
              simp [h4]

theorem placeAt_positions_fresh {st : LayoutState} {v : String} (lane startRow : Nat)
    (h : lookupA st.positions v = none) :
    (placeAt st v lane startRow).positions
      = st.positions ++ [(v, ⟨lane * 80, resolvedRowAt st lane startRow * 80, lane,
          resolvedRowAt st lane startRow⟩)] := by
  simp only [placeAt]
  exact upsertA_of_not_mem _ (lookupA_eq_none_iff.mp h)

theorem lookupA_placeAt_self (st : LayoutState) (v : String) (lane startRow : Nat) :
    lookupA (placeAt st v lane startRow).positions v
      = some ⟨lane * 80, resolvedRowAt st lane startRow * 80, lane,
          resolvedRowAt st lane startRow⟩ := by
  simp only [placeAt]
  exact lookupA_upsertA_self

theorem usedRows_placeAt (st : LayoutState) (v : String) (lane startRow lane' : Nat) :
    usedRows (placeAt st v lane startRow).laneUsage lane'
      = if lane' = lane
          then usedRows st.laneUsage lane' ++ [resolvedRowAt st lane startRow]
          else usedRows st.laneUsage lane' := by
  by_cases hl : lane' = lane
  · rw [if_pos hl, hl]
    simp only [placeAt]
    exact usedRows_pushA_self _ _ _
  · rw [if_neg hl]
    simp only [placeAt]
    exact usedRows_pushA_ne _ _ hl

theorem lookupA_append_both_none {α β : Type} [DecidableEq α] {l m : List (α × β)} {k : α}
    (h1 : lookupA l k = none) (h2 : lookupA m k = none) :
    lookupA (l ++ m) k = none := by
  rw [lookupA_append_none h1]
  exact h2

/-- What one placement call guarantees about the final state, relative to
its entry state: the positions record grows by exactly the visited ids (in
visit order), every visited node's children end up strictly below it, and
every visited node's first child shares its lane. -/
def SubtreeReport (cm : List (String × List String)) (st st' : LayoutState)
    (ds : List String) : Prop :=
  (∃ new, st'.positions = st.positions ++ new ∧ new.map Prod.fst = ds)
  ∧ (∀ k ∈ ds, ∀ c ∈ childrenOf cm k,
      ∃ pk pc, lookupA st'.positions k = some pk
        ∧ lookupA st'.positions c = some pc ∧ pk.row < pc.row)
  ∧ (∀ k ∈ ds, ∀ c0 rest0, childrenOf cm k = c0 :: rest0 →
      ∃ pk pc, lookupA st'.positions k = some pk
        ∧ lookupA st'.positions c0 = some pc ∧ pc.lane = pk.lane)

/-- The guarantees of `assignPosition cm f` on fresh, duplicate-free
visited sets. -/
def AssignOut (cm : List (String × List String)) (f : Nat) : Prop :=
  ∀ v lane startRow st st' ds,
    assignPosition cm f v lane startRow st = some st' →
    descL cm f v = some ds → ds.Nodup →
    (∀ k ∈ ds, lookupA st.positions k = none) →
    SubtreeReport cm st st' ds
    ∧ lookupA st'.positions v = some ⟨lane * 80, resolvedRowAt st lane startRow * 80,
        lane, resolvedRowAt st lane startRow⟩
    ∧ (∀ lane' r, r ∈ usedRows st'.laneUsage lane' →
        r ∈ usedRows st.laneUsage lane'
        ∨ (lane' = lane ∧ r = resolvedRowAt st lane startRow)
        ∨ startRow + 1 ≤ r)

theorem descListLoop_nil_inv {go : String → Option (List String)} {ds : List String}
    (h : descListLoop go [] = some ds) : ds = [] := by
  simp only [descListLoop] at h
  injection h with h
  exact h.symm

theorem descListLoop_cons_inv {go : String → Option (List String)}
    {c : String} {rest ds : List String}
    (h : descListLoop go (c :: rest) = some ds) :
    ∃ d1 drest, go c = some d1 ∧ descListLoop go rest = some drest
      ∧ ds = d1 ++ drest := by
  simp only [descListLoop] at h
  cases hc : go c with
  | none => rw [hc] at h; simp at h
  | some d1 =>
    rw [hc] at h
    cases hr : descListLoop go rest with
    | none => rw [hr] at h; simp at h
    | some drest =>
      rw [hr] at h
      simp only [] at h
      injection h with h
      exact ⟨d1, drest, rfl, rfl, h.symm⟩

theorem descL_succ_inv {cm : List (String × List String)} {f : Nat} {v : String}
    {ds : List String} (h : descL cm (f + 1) v = some ds) :
    ∃ ds0, descListLoop (descL cm f) (childrenOf cm v) = some ds0
      ∧ ds = v :: ds0 := by
  simp only [descL] at h
  cases hd : descListLoop (descL cm f) (childrenOf cm v) with
  | none => rw [hd] at h; simp at h
  | some ds0 =>
    rw [hd] at h
    simp only [] at h
    injection h with h
    exact ⟨ds0, rfl, h.symm⟩

theorem childLoop_nil_inv {go : String → Nat → Nat → LayoutState → Option LayoutState}
    {lane row idx : Nat} {st st' : LayoutState}
    (h : childLoop go lane row [] idx st = some st') : st' = st := by
  simp only [childLoop] at h
  injection h with h
  exact h.symm

theorem childLoop_cons_zero_inv
    {go : String → Nat → Nat → LayoutState → Option LayoutState}
    {lane row : Nat} {c : String} {rest : List String} {st st' : LayoutState}
    (h : childLoop go lane row (c :: rest) 0 st = some st') :
    ∃ st2, go c lane (row + 1) st = some st2
      ∧ childLoop go lane row rest 1 st2 = some st' := by
  simp only [childLoop, ite_true] at h
  cases hc : go c lane (row + 1) st with
  | none => rw [hc] at h; simp at h
  | some st2 =>
    rw [hc] at h
    simp only [] at h
    exact ⟨st2, rfl, h⟩

theorem childLoop_cons_pos_inv
    {go : String → Nat → Nat → LayoutState → Option LayoutState}
    {lane row idx : Nat} {c : String} {rest : List String} {st st' : LayoutState}
    (hidx : ¬ idx = 0)
    (h : childLoop go lane row (c :: rest) idx st = some st') :
    ∃ st2, go c st.laneNextRow.length (row + 1)
        { st with laneNextRow :=
            upsertA st.laneNextRow st.laneNextRow.length (row + 1) } = some st2
      ∧ childLoop go lane row rest (idx + 1) st2 = some st' := by
  simp only [childLoop, hidx, ite_false] at h
  cases hc : go c st.laneNextRow.length (row + 1)
      { st with laneNextRow :=
          upsertA st.laneNextRow st.laneNextRow.length (row + 1) } with
  | none => rw [hc] at h; simp at h
  | some st2 =>
    rw [hc] at h
    simp only [] at h
    exact ⟨st2, rfl, h⟩

theorem assignPosition_succ_unfold (cm : List (String × List String)) (f : Nat)
    (v : String) (lane startRow : Nat) (st : LayoutState) :
    assignPosition cm (f + 1) v lane startRow st
      = childLoop (assignPosition cm f) lane (resolvedRowAt st lane startRow)
          (childrenOf cm v) 0 (placeAt st v lane startRow) := rfl

/-- The guarantees of the children pass. -/
def ChildrenOut (cm : List (String × List String)) (f : Nat) : Prop :=
  ∀ cs idx lane row st st' ds,
    childLoop (assignPosition cm f) lane row cs idx st = some st' →
    descListLoop (descL cm f) cs = some ds → ds.Nodup →
    (∀ k ∈ ds, lookupA st.positions k = none) →
    SubtreeReport cm st st' ds
    ∧ (∀ c ∈ cs, ∃ pc, lookupA st'.positions c = some pc ∧ row + 1 ≤ pc.row)
    ∧ (idx = 0 → ∀ c0 rest0, cs = c0 :: rest0 →
        ∃ pc, lookupA st'.positions c0 = some pc ∧ pc.lane = lane)
    ∧ (∀ lane' r, r ∈ usedRows st'.laneUsage lane' →
        r ∈ usedRows st.laneUsage lane' ∨ row + 1 ≤ r)

/-- The master induction: the guarantees hold at every fuel level. -/
theorem assign_out_spec (cm : List (String × List String)) :
    ∀ f, AssignOut cm f ∧ ChildrenOut cm f := by
  intro f
  induction f with
  | zero =>
    constructor
    · intro v lane startRow st st' ds h
      cases h
    · intro cs idx lane row st st' ds h hds hnd hfresh
      cases cs with
      | nil =>
        have hst : st' = st := childLoop_nil_inv h
        have hds0 : ds = [] := descListLoop_nil_inv hds
        subst hst
        subst hds0
        refine ⟨⟨⟨[], by simp, rfl⟩, ?_, ?_⟩, ?_, ?_, ?_⟩
        · intro k hk; cases hk
        · intro k hk; cases hk
        · intro c hc; cases hc
        · intro _ c0 rest0 heq; cases heq
        · intro lane' r hr; exact Or.inl hr
      | cons c rest =>
        exfalso
        by_cases hidx : idx = 0
        · subst hidx
          obtain ⟨st2, hc2, _⟩ := childLoop_cons_zero_inv h
          cases hc2
        · obtain ⟨st2, hc2, _⟩ := childLoop_cons_pos_inv hidx h
          cases hc2
  | succ f ih =>
    have hA : AssignOut cm (f + 1) := by
      intro v lane startRow st st' ds h hds hnd hfresh
      obtain ⟨ds0, hdll, hds0⟩ := descL_succ_inv hds
      subst hds0
      rw [assignPosition_succ_unfold] at h
      have hvfresh : lookupA st.positions v = none := hfresh v (List.mem_cons_self _ _)
      obtain ⟨hvnot, hnd0⟩ := List.nodup_cons.mp hnd
      have hpos1 := placeAt_positions_fresh lane startRow hvfresh
      have hfresh1 : ∀ k ∈ ds0,
          lookupA (placeAt st v lane startRow).positions k = none := by
        intro k hk
        rw [hpos1]
        refine lookupA_append_both_none (hfresh k (List.mem_cons_of_mem _ hk)) ?_
        have hkv : ¬ (v = k) := fun hh => hvnot (hh ▸ hk)
        simp [lookupA, hkv]
      obtain ⟨⟨⟨newrest, hnewpos, hnewkeys⟩, hedge, hfirst⟩, hBrest, hBfirst, hErest⟩ :=
        ih.2 (childrenOf cm v) 0 lane (resolvedRowAt st lane startRow)
          (placeAt st v lane startRow) st' ds0 h hdll hnd0 hfresh1
      have hvfin : lookupA st'.positions v
          = some ⟨lane * 80, resolvedRowAt st lane startRow * 80, lane,
              resolvedRowAt st lane startRow⟩ := by
        rw [hnewpos]
        exact lookupA_append_some (lookupA_placeAt_self st v lane startRow)
      refine ⟨⟨⟨(v, ⟨lane * 80, resolvedRowAt st lane startRow * 80, lane,
          resolvedRowAt st lane startRow⟩) :: newrest, ?_, ?_⟩, ?_, ?_⟩, hvfin, ?_⟩
      · rw [hnewpos, hpos1, List.append_assoc]
        rfl
      · simp [hnewkeys]
      · intro k hk c hc
        rcases List.mem_cons.mp hk with rfl | hk0
        · obtain ⟨pc, hpc, hrow⟩ := hBrest c hc
          exact ⟨_, pc, hvfin, hpc, Nat.lt_of_succ_le hrow⟩
        · exact hedge k hk0 c hc
      · intro k hk c0 rest0 heq
        rcases List.mem_cons.mp hk with rfl | hk0
        · obtain ⟨pc, hpc, hlanec⟩ := hBfirst rfl c0 rest0 heq
          exact ⟨_, pc, hvfin, hpc, hlanec⟩
        · exact hfirst k hk0 c0 rest0 heq
      · intro lane' r hr
        rcases hErest lane' r hr with h1 | h2
        · rw [usedRows_placeAt] at h1
          by_cases hl : lane' = lane
          · rw [if_pos hl] at h1
            rcases List.mem_append.mp h1 with hm | hm
            · exact Or.inl hm
            · exact Or.inr (Or.inl ⟨hl, List.mem_singleton.mp hm⟩)
          · rw [if_neg hl] at h1
            exact Or.inl h1
        · have hge : startRow ≤ resolvedRowAt st lane startRow := resolveRow_ge _ _
          exact Or.inr (Or.inr (by omega))
    have hC : ChildrenOut cm (f + 1) := by
      intro cs
      induction cs with
      | nil =>
        intro idx lane row st st' ds h hds hnd hfresh
        have hst : st' = st := childLoop_nil_inv h
        have hds0 : ds = [] := descListLoop_nil_inv hds
        subst hst
        subst hds0
        refine ⟨⟨⟨[], by simp, rfl⟩, ?_, ?_⟩, ?_, ?_, ?_⟩
        · intro k hk; cases hk
        · intro k hk; cases hk
        · intro c hc; cases hc
        · intro _ c0 rest0 heq; cases heq
        · intro lane' r hr; exact Or.inl hr
      | cons c rest ihc =>
        intro idx lane row st st' ds h hds hnd hfresh
        obtain ⟨d1, drest, hd1, hdrest, hdseq⟩ := descListLoop_cons_inv hds
        subst hdseq
        rw [List.nodup_append] at hnd
        obtain ⟨hnd1, hndrest, hdisj⟩ := hnd
        have hfresh_d1 : ∀ k ∈ d1, lookupA st.positions k = none :=
          fun k hk => hfresh k (List.mem_append_left _ hk)
        have hfresh_drest : ∀ k ∈ drest, lookupA st.positions k = none :=
          fun k hk => hfresh k (List.mem_append_right _ hk)
        by_cases hidx : idx = 0
        · subst hidx
          obtain ⟨st2, hc2, hrest2⟩ := childLoop_cons_zero_inv h
          obtain ⟨⟨⟨new1, hpos1, hkeys1⟩, hedge1, hfirst1⟩, hcent, hE1⟩ :=
            hA c lane (row + 1) st st2 d1 hc2 hd1 hnd1 hfresh_d1
          have hfresh2 : ∀ k ∈ drest, lookupA st2.positions k = none := by
            intro k hk
            rw [hpos1]
            refine lookupA_append_both_none (hfresh_drest k hk) ?_
            apply lookupA_eq_none_iff.mpr
            rw [hkeys1]
            exact fun hmem => hdisj hmem hk
          obtain ⟨⟨⟨new2, hpos2, hkeys2⟩, hedge2, hfirst2⟩, hBrest, _, hE2⟩ :=
            ihc 1 lane row st2 st' drest hrest2 hdrest hndrest hfresh2
          refine ⟨⟨⟨new1 ++ new2, ?_, ?_⟩, ?_, ?_⟩, ?_, ?_, ?_⟩
          · rw [hpos2, hpos1, List.append_assoc]
          · simp [hkeys1, hkeys2]
          · intro k hk c' hc'
            rcases List.mem_append.mp hk with hk1 | hk2
            · obtain ⟨pk, pc, h1, h2, h3⟩ := hedge1 k hk1 c' hc'
              exact ⟨pk, pc, by rw [hpos2]; exact lookupA_append_some h1,
                by rw [hpos2]; exact lookupA_append_some h2, h3⟩
            · exact hedge2 k hk2 c' hc'
          · intro k hk c0 rest0 heq
            rcases List.mem_append.mp hk with hk1 | hk2
            · obtain ⟨pk, pc, h1, h2, h3⟩ := hfirst1 k hk1 c0 rest0 heq
              exact ⟨pk, pc, by rw [hpos2]; exact lookupA_append_some h1,
                by rw [hpos2]; exact lookupA_append_some h2, h3⟩
            · exact hfirst2 k hk2 c0 rest0 heq
          · intro c' hc'
            rcases List.mem_cons.mp hc' with rfl | hcr
            · refine ⟨_, by rw [hpos2]; exact lookupA_append_some hcent, ?_⟩
              exact resolveRow_ge _ _
            · exact hBrest c' hcr
          · intro _ c0 rest0 heq
            injection heq with heq1 heq2
            subst heq1
            exact ⟨_, by rw [hpos2]; exact lookupA_append_some hcent, rfl⟩
          · intro lane' r hr
            rcases hE2 lane' r hr with h1 | h2
            · rcases hE1 lane' r h1 with g1 | g2 | g3
              · exact Or.inl g1
              · right
                have hge : row + 1 ≤ resolvedRowAt st lane (row + 1) :=
                  resolveRow_ge _ _
                rw [g2.2]
                exact hge
              · exact Or.inr (by omega)
            · exact Or.inr h2
        · obtain ⟨st2, hc2, hrest2⟩ := childLoop_cons_pos_inv hidx h
          obtain ⟨⟨⟨new1, hpos1, hkeys1⟩, hedge1, hfirst1⟩, hcent, hE1⟩ :=
            hA c st.laneNextRow.length (row + 1) _ st2 d1 hc2 hd1 hnd1
              (fun k hk => hfresh_d1 k hk)
          have hfresh2 : ∀ k ∈ drest, lookupA st2.positions k = none := by
            intro k hk
            rw [hpos1]
            refine lookupA_append_both_none (hfresh_drest k hk) ?_
            apply lookupA_eq_none_iff.mpr
            rw [hkeys1]
            exact fun hmem => hdisj hmem hk
          obtain ⟨⟨⟨new2, hpos2, hkeys2⟩, hedge2, hfirst2⟩, hBrest, _, hE2⟩ :=
            ihc (idx + 1) lane row st2 st' drest hrest2 hdrest hndrest hfresh2
          refine ⟨⟨⟨new1 ++ new2, ?_, ?_⟩, ?_, ?_⟩, ?_, ?_, ?_⟩
          · rw [hpos2, hpos1, List.append_assoc]
          · simp [hkeys1, hkeys2]
          · intro k hk c' hc'
            rcases List.mem_append.mp hk with hk1 | hk2
            · obtain ⟨pk, pc, h1, h2, h3⟩ := hedge1 k hk1 c' hc'
              exact ⟨pk, pc, by rw [hpos2]; exact lookupA_append_some h1,
                by rw [hpos2]; exact lookupA_append_some h2, h3⟩
            · exact hedge2 k hk2 c' hc'
          · intro k hk c0 rest0 heq
            rcases List.mem_append.mp hk with hk1 | hk2
            · obtain ⟨pk, pc, h1, h2, h3⟩ := hfirst1 k hk1 c0 rest0 heq
              exact ⟨pk, pc, by rw [hpos2]; exact lookupA_append_some h1,
                by rw [hpos2]; exact lookupA_append_some h2, h3⟩
            · exact hfirst2 k hk2 c0 rest0 heq
          · intro c' hc'
            rcases List.mem_cons.mp hc' with rfl | hcr
            · refine ⟨_, by rw [hpos2]; exact lookupA_append_some hcent, ?_⟩
              exact resolveRow_ge _ _
            · exact hBrest c' hcr
          · intro h0
            exact absurd h0 hidx
          · intro lane' r hr
            rcases hE2 lane' r hr with h1 | h2
            · rcases hE1 lane' r h1 with g1 | g2 | g3
              · exact Or.inl g1
              · right
                have hge : row + 1 ≤ resolvedRowAt
                    { st with laneNextRow :=
                        upsertA st.laneNextRow st.laneNextRow.length (row + 1) }
                    st.laneNextRow.length (row + 1) := resolveRow_ge _ _
                rw [g2.2]
                exact hge
              · exact Or.inr (by omega)
            · exact Or.inr h2
    exact ⟨hA, hC⟩

/-!  ### The parent graph: roots, steps to a root, acyclicity  -/

/-- `sortedVersions.find(sv => sv.version_id === id)`. -/
def findRec (sv : List CapsuleVersion) (id : String) : Option CapsuleVersion :=
  sv.find? (fun w => decide (w.version_id = id))

/-- Unique ids within the batch (the spec's input invariant). -/
def NodupIds (sv : List CapsuleVersion) : Prop :=
  (idsOf sv).Nodup

instance (sv : List CapsuleVersion) : Decidable (NodupIds sv) :=
  inferInstanceAs (Decidable (idsOf sv).Nodup)

/-- Fuel-bounded distance from a record to a root along parent links; the
`some 0` fallthrough branches are unreachable (a non-root always has a
present, found parent). -/
def stepsToRoot (sv : List CapsuleVersion) : Nat → CapsuleVersion → Option Nat
  | 0, v => if isRoot sv v then some 0 else none
  | f + 1, v =>
    if isRoot sv v then some 0
    else
      match parentKey v with
      | none => some 0
      | some p =>
        match findRec sv p with
        | none => some 0
        | some w => (stepsToRoot sv f w).map (fun n => n + 1)

/-- The parent relation restricted to ids present in the batch is acyclic:
every record reaches a root within `length` parent steps. -/
def Acyclic (sv : List CapsuleVersion) : Prop :=
  ∀ v ∈ sv, (stepsToRoot sv sv.length v).isSome

instance (sv : List CapsuleVersion) : Decidable (Acyclic sv) :=
  List.decidableBAll _ sv

/-- Root distance of a record under `Acyclic`. -/
def stepsOf (sv : List CapsuleVersion) (v : CapsuleVersion) : Nat :=
  (stepsToRoot sv sv.length v).getD 0

/-- Root distance of an id. -/
def idSteps (sv : List CapsuleVersion) (id : String) : Nat :=
  match findRec sv id with
  | none => 0
  | some w => stepsOf sv w

theorem stepsToRoot_mono (sv : List CapsuleVersion) :
    ∀ f f' v n, stepsToRoot sv f v = some n → f ≤ f' →
      stepsToRoot sv f' v = some n := by
  intro f
  induction f with
  | zero =>
    intro f' v n h _
    simp only [stepsToRoot] at h
    by_cases hr : isRoot sv v
    · rw [if_pos hr] at h
      cases f' <;> simp [stepsToRoot, hr, h]
    · rw [if_neg hr] at h
      cases h
  | succ f ih =>
    intro f' v n h hle
    cases f' with
    | zero => omega
    | succ f2 =>
      simp only [stepsToRoot] at h ⊢
      by_cases hr : isRoot sv v
      · rw [if_pos hr] at h ⊢
        exact h
      · rw [if_neg hr] at h ⊢
        cases hp : parentKey v with
        | none =>
          rw [hp] at h
          simp only [] at h ⊢
          exact h
        | some p =>
          rw [hp] at h
          simp only [] at h ⊢
          cases hf : findRec sv p with
          | none =>
            rw [hf] at h
            simp only [] at h ⊢
            exact h
          | some w =>
            rw [hf] at h
            simp only [] at h ⊢
            cases hs : stepsToRoot sv f w with
            | none => rw [hs] at h; simp at h
            | some m =>
              rw [hs] at h
              rw [ih f2 w m hs (by omega)]
              exact h

theorem stepsToRoot_le (sv : List CapsuleVersion) :
    ∀ f v n, stepsToRoot sv f v = some n → n ≤ f := by
  intro f
  induction f with
  | zero =>
    intro v n h
    simp only [stepsToRoot] at h
    by_cases hr : isRoot sv v
    · rw [if_pos hr] at h; injection h with h; omega
    · rw [if_neg hr] at h; cases h
  | succ f ih =>
    intro v n h
    simp only [stepsToRoot] at h
    by_cases hr : isRoot sv v
    · rw [if_pos hr] at h; injection h with h; omega
    · rw [if_neg hr] at h
      cases hp : parentKey v with
      | none =>
        rw [hp] at h
        simp only [] at h
        injection h with h
        omega
      | some p =>
        rw [hp] at h
        simp only [] at h
        cases hf : findRec sv p with
        | none =>
          rw [hf] at h
          simp only [] at h
          injection h with h
          omega
        | some w =>
          rw [hf] at h
          simp only [] at h
          cases hs : stepsToRoot sv f w with
          | none => rw [hs] at h; simp at h
          | some m =>
            rw [hs] at h
            simp only [Option.map_some'] at h
            injection h with h
            have := ih w m hs
            omega

theorem stepsToRoot_root {sv : List CapsuleVersion} {v : CapsuleVersion}
    (h : isRoot sv v) : ∀ f, stepsToRoot sv f v = some 0 := by
  intro f
  cases f <;> simp [stepsToRoot, h]

theorem stepsToRoot_step {sv : List CapsuleVersion} {v w : CapsuleVersion}
    {p : String} (hr : ¬ isRoot sv v) (hp : parentKey v = some p)
    (hf : findRec sv p = some w) (f : Nat) :
    stepsToRoot sv (f + 1) v = (stepsToRoot sv f w).map (fun n => n + 1) := by
  simp [stepsToRoot, hr, hp, hf]

theorem findRec_mem {sv : List CapsuleVersion} {id : String} {w : CapsuleVersion}
    (h : findRec sv id = some w) : w ∈ sv ∧ w.version_id = id := by
  refine ⟨List.mem_of_find?_eq_some h, ?_⟩
  have := List.find?_some h
  simpa using this

theorem findRec_eq_none_iff {sv : List CapsuleVersion} {id : String} :
    findRec sv id = none ↔ id ∉ idsOf sv := by
  rw [findRec, List.find?_eq_none]
  constructor
  · intro h hmem
    obtain ⟨w, hw, hid⟩ := List.mem_map.mp hmem
    exact absurd (by simpa using hid) (by simpa using h w hw)
  · intro h w hw
    simp only [decide_eq_true_eq]
    intro hid
    exact h (List.mem_map.mpr ⟨w, hw, hid⟩)

theorem findRec_isSome_of_mem {sv : List CapsuleVersion} {id : String}
    (h : id ∈ idsOf sv) : ∃ w, findRec sv id = some w := by
  cases hf : findRec sv id with
  | none => exact absurd h (findRec_eq_none_iff.mp hf)
  | some w => exact ⟨w, rfl⟩

theorem findRec_of_mem_nodup {sv : List CapsuleVersion} (hN : NodupIds sv)
    {w : CapsuleVersion} (hw : w ∈ sv) : findRec sv w.version_id = some w := by
  obtain ⟨u, hu⟩ := findRec_isSome_of_mem (List.mem_map.mpr ⟨w, hw, rfl⟩)
  obtain ⟨humem, huid⟩ := findRec_mem hu
  have : u = w := List.inj_on_of_nodup_map hN humem hw huid
  rw [hu, this]

theorem any_id_eq_mem (sv : List CapsuleVersion) (p : String) :
    (sv.any fun w => w.version_id = p) = true ↔ p ∈ idsOf sv := by
  rw [List.any_eq_true]
  constructor
  · intro ⟨w, hw, hid⟩
    exact List.mem_map.mpr ⟨w, hw, by simpa using hid⟩
  · intro h
    obtain ⟨w, hw, hid⟩ := List.mem_map.mp h
    exact ⟨w, hw, by simpa using hid⟩

theorem not_isRoot_iff {sv : List CapsuleVersion} {v : CapsuleVersion} :
    (¬ isRoot sv v) ↔ ∃ p, parentKey v = some p ∧ p ∈ idsOf sv := by
  constructor
  · intro h
    cases hp : parentKey v with
    | none => exact absurd (by simp [isRoot, hp]) h
    | some p =>
      refine ⟨p, rfl, ?_⟩
      by_contra hmem
      have : (sv.any fun w => w.version_id = p) = false := by
        rw [← Bool.not_eq_true]
        intro hany
        exact hmem ((any_id_eq_mem sv p).mp hany)
      exact h (by simp [isRoot, hp, this])
  · intro ⟨p, hp, hmem⟩ hroot
    simp only [isRoot, hp] at hroot
    rw [Bool.not_eq_true', ← Bool.not_eq_true] at hroot
    exact hroot ((any_id_eq_mem sv p).mpr hmem)

/-- The children map records exactly the ids whose `parentKey` is the
given key, in batch order. -/
theorem children_foldl (k : String) :
    ∀ (sv : List CapsuleVersion) (m : List (String × List String)),
      (lookupA (sv.foldl
          (fun m v =>
            match parentKey v with
            | none => m
            | some p => pushA m p v.version_id) m) k).getD []
        = (lookupA m k).getD []
          ++ (sv.filter (fun w => decide (parentKey w = some k))).map
              (fun w => w.version_id) := by
  intro sv
  induction sv with
  | nil => intro m; simp
  | cons v rest ih =>
    intro m
    rw [List.foldl_cons, ih]
    cases hp : parentKey v with
    | none => simp [hp]
    | some p =>
      by_cases hpk : p = k
      · subst hpk
        simp only [hp]
        rw [lookupA_pushA_self]
        rw [List.filter_cons_of_pos (by simp [hp]), List.map_cons]
        simp [List.append_assoc]
      · have hne : ¬ (parentKey v = some k) := by
          rw [hp]
          exact fun hh => hpk (Option.some.inj hh)
        simp only [hp]
        rw [lookupA_pushA_ne (fun hh => hpk hh.symm)]
        simp [hne]

theorem childrenOf_build (sv : List CapsuleVersion) (k : String) :
    childrenOf (buildChildrenMap sv) k
      = (sv.filter (fun w => decide (parentKey w = some k))).map
          (fun w => w.version_id) := by
  rw [childrenOf, buildChildrenMap, children_foldl]
  simp [lookupA]

theorem mem_childrenOf_build {sv : List CapsuleVersion} {k c : String} :
    c ∈ childrenOf (buildChildrenMap sv) k
      ↔ ∃ w ∈ sv, w.version_id = c ∧ parentKey w = some k := by
  rw [childrenOf_build]
  simp only [List.mem_map, List.mem_filter, decide_eq_true_eq]
  constructor
  · intro ⟨w, ⟨hw, hpk⟩, hid⟩
    exact ⟨w, hw, hid, hpk⟩
  · intro ⟨w, hw, hid, hpk⟩
    exact ⟨w, ⟨hw, hpk⟩, hid⟩

theorem childrenOf_nodup {sv : List CapsuleVersion} (hN : NodupIds sv) (k : String) :
    (childrenOf (buildChildrenMap sv) k).Nodup := by
  rw [childrenOf_build]
  have hsub : List.Sublist
      ((sv.filter (fun w => decide (parentKey w = some k))).map
        (fun w => w.version_id))
      (sv.map (fun w => w.version_id)) :=
    (sv.filter_sublist).map _
  exact hN.sublist hsub

theorem childrenOf_disjoint {sv : List CapsuleVersion} (hN : NodupIds sv)
    {k1 k2 c : String} (h1 : c ∈ childrenOf (buildChildrenMap sv) k1)
    (h2 : c ∈ childrenOf (buildChildrenMap sv) k2) : k1 = k2 := by
  obtain ⟨w1, hw1, hid1, hp1⟩ := mem_childrenOf_build.mp h1
  obtain ⟨w2, hw2, hid2, hp2⟩ := mem_childrenOf_build.mp h2
  have : w1 = w2 := List.inj_on_of_nodup_map hN hw1 hw2 (hid1.trans hid2.symm)
  rw [this] at hp1
  exact Option.some.inj (hp1.symm.trans hp2)

theorem idSteps_le {sv : List CapsuleVersion} (hA : Acyclic sv) {id : String}
    (h : id ∈ idsOf sv) : idSteps sv id ≤ sv.length := by
  obtain ⟨w, hw⟩ := findRec_isSome_of_mem h
  obtain ⟨hwmem, _⟩ := findRec_mem hw
  obtain ⟨m, hm⟩ := Option.isSome_iff_exists.mp (hA w hwmem)
  have heq : idSteps sv id = m := by simp [idSteps, hw, stepsOf, hm]
  rw [heq]
  exact stepsToRoot_le sv _ w m hm

/-- The parent edge increments the root distance by exactly one. -/
theorem idSteps_child {sv : List CapsuleVersion} (hN : NodupIds sv)
    (hA : Acyclic sv) {k c : String} (hk : k ∈ idsOf sv)
    (hc : c ∈ childrenOf (buildChildrenMap sv) k) :
    c ∈ idsOf sv ∧ idSteps sv c = idSteps sv k + 1 := by
  obtain ⟨w, hw, hid, hpk⟩ := mem_childrenOf_build.mp hc
  have hcm : c ∈ idsOf sv := List.mem_map.mpr ⟨w, hw, hid⟩
  refine ⟨hcm, ?_⟩
  obtain ⟨u, hu⟩ := findRec_isSome_of_mem hk
  obtain ⟨humem, _⟩ := findRec_mem hu
  have hwfind : findRec sv c = some w := by
    have := findRec_of_mem_nodup hN hw
    rw [hid] at this
    exact this
  have hnroot : ¬ isRoot sv w := not_isRoot_iff.mpr ⟨k, hpk, hk⟩
  have hlen : 0 < sv.length := List.length_pos.mpr (List.ne_nil_of_mem hw)
  obtain ⟨n', hn'⟩ : ∃ n', sv.length = n' + 1 := ⟨sv.length - 1, by omega⟩
  obtain ⟨m, hm⟩ := Option.isSome_iff_exists.mp (hA w hw)
  have hstep := stepsToRoot_step hnroot hpk hu n'
  rw [hn'] at hm
  rw [hstep] at hm
  cases hsu : stepsToRoot sv n' u with
  | none => rw [hsu] at hm; simp at hm
  | some m' =>
    have hmono := stepsToRoot_mono sv n' sv.length u m' hsu (by omega)
    have h1 : idSteps sv c = m' + 1 := by
      simp [idSteps, hwfind, stepsOf, hn', hstep, hsu]
    have h2 : idSteps sv k = m' := by
      simp [idSteps, hu, stepsOf, hmono]
    omega

theorem idSteps_root_zero {sv : List CapsuleVersion} (hN : NodupIds sv)
    {r : CapsuleVersion} (hr : r ∈ sv) (hroot : isRoot sv r) :
    idSteps sv r.version_id = 0 := by
  simp [idSteps, findRec_of_mem_nodup hN hr, stepsOf, stepsToRoot_root hroot]

theorem descListLoop_isSome_iff {go : String → Option (List String)} :
    ∀ cs : List String,
      (descListLoop go cs).isSome ↔ ∀ c ∈ cs, (go c).isSome := by
  intro cs
  induction cs with
  | nil => simp [descListLoop]
  | cons c rest ih =>
    simp only [descListLoop]
    cases hc : go c with
    | none => simp [hc]
    | some d1 =>
      cases hrest : descListLoop go rest with
      | none =>
        rw [hrest] at ih
        simp only [Option.isSome_none, Bool.false_eq_true, false_iff] at ih
        push_neg at ih
        obtain ⟨c', hc', hnone⟩ := ih
        simp only [Option.isSome_some]
        constructor
        · intro hh; cases hh
        · intro hall
          have := hall c' (List.mem_cons_of_mem _ hc')
          simp [Option.not_isSome_iff_eq_none.mp (by simpa using hnone)] at this
      | some drest =>
        rw [hrest] at ih
        simp only [Option.isSome_some, true_iff] at ih
        simp only [Option.isSome_some, true_iff]
        intro c' hc'
        rcases List.mem_cons.mp hc' with rfl | hm
        · simp [hc]
        · exact ih c' hm

/-- Fuel that exceeds the remaining depth always suffices for the
descent. -/
theorem descL_isSome_of_fuel {sv : List CapsuleVersion} (hN : NodupIds sv)
    (hA : Acyclic sv) :
    ∀ f id, id ∈ idsOf sv → sv.length < idSteps sv id + f →
      (descL (buildChildrenMap sv) f id).isSome := by
  intro f
  induction f with
  | zero =>
    intro id hid hf
    have := idSteps_le hA hid
    omega
  | succ f ih =>
    intro id hid hf
    have hall : ∀ c ∈ childrenOf (buildChildrenMap sv) id,
        (descL (buildChildrenMap sv) f c).isSome := by
      intro c hc
      obtain ⟨hcm, hstep⟩ := idSteps_child hN hA hid hc
      exact ih c hcm (by omega)
    obtain ⟨ds0, hds0⟩ := Option.isSome_iff_exists.mp
      ((descListLoop_isSome_iff _).mpr hall)
    simp [descL, hds0]

/-- Everything a descent visits lies strictly deeper, except the head. -/
theorem descL_steps {sv : List CapsuleVersion} (hN : NodupIds sv)
    (hA : Acyclic sv) :
    ∀ f v ds, v ∈ idsOf sv → descL (buildChildrenMap sv) f v = some ds →
      ∀ x ∈ ds, x ∈ idsOf sv ∧ (x = v ∨ idSteps sv v < idSteps sv x) := by
  intro f
  induction f with
  | zero => intro v ds hv h; cases h
  | succ f ih =>
    intro v ds hv h x hx
    obtain ⟨ds0, hdll, hds⟩ := descL_succ_inv h
    subst hds
    rcases List.mem_cons.mp hx with rfl | hx0
    · exact ⟨hv, Or.inl rfl⟩
    · obtain ⟨c, hc, dc, hdc, hxdc, _⟩ := descListLoop_mem_split hdll x hx0
      obtain ⟨hcm, hstep⟩ := idSteps_child hN hA hv hc
      obtain ⟨hxm, hxor⟩ := ih c dc hcm hdc x hxdc
      refine ⟨hxm, Or.inr ?_⟩
      rcases hxor with rfl | hlt <;> omega

/-- Two descents of equal depth that share an element start at the same
id. -/
theorem descL_unique {sv : List CapsuleVersion} (hN : NodupIds sv)
    (hA : Acyclic sv) :
    ∀ f1 f2 c c' x ds ds', c ∈ idsOf sv → c' ∈ idsOf sv →
      descL (buildChildrenMap sv) f1 c = some ds →
      descL (buildChildrenMap sv) f2 c' = some ds' →
      x ∈ ds → x ∈ ds' → idSteps sv c = idSteps sv c' → c = c' := by
  intro f1
  induction f1 with
  | zero => intro f2 c c' x ds ds' _ _ h; cases h
  | succ f1 ih =>
    intro f2 c c' x ds ds' hcm hcm' hds hds' hx hx' hsteps
    cases f2 with
    | zero => cases hds'
    | succ f2 =>
      obtain ⟨ds0, hdll, hdse⟩ := descL_succ_inv hds
      obtain ⟨ds0', hdll', hdse'⟩ := descL_succ_inv hds'
      subst hdse
      subst hdse'
      rcases List.mem_cons.mp hx with rfl | hx0
      · rcases List.mem_cons.mp hx' with rfl | hx0'
        · rfl
        · exfalso
          obtain ⟨c1', hc1', dc', hdc', hxdc', _⟩ :=
            descListLoop_mem_split hdll' x hx0'
          obtain ⟨hc1m', hstep'⟩ := idSteps_child hN hA hcm' hc1'
          obtain ⟨_, hxor⟩ := descL_steps hN hA f2 c1' dc' hc1m' hdc' _ hxdc'
          rcases hxor with rfl | hlt <;> omega
      · rcases List.mem_cons.mp hx' with rfl | hx0'
        · exfalso
          obtain ⟨c1, hc1, dc, hdc, hxdc, _⟩ :=
            descListLoop_mem_split hdll x hx0
          obtain ⟨hc1m, hstep⟩ := idSteps_child hN hA hcm hc1
          obtain ⟨_, hxor⟩ := descL_steps hN hA f1 c1 dc hc1m hdc _ hxdc
          rcases hxor with rfl | hlt <;> omega
        · obtain ⟨c1, hc1, dc, hdc, hxdc, _⟩ :=
            descListLoop_mem_split hdll x hx0
          obtain ⟨c1', hc1', dc', hdc', hxdc', _⟩ :=
            descListLoop_mem_split hdll' x hx0'
          obtain ⟨hc1m, hstep⟩ := idSteps_child hN hA hcm hc1
          obtain ⟨hc1m', hstep'⟩ := idSteps_child hN hA hcm' hc1'
          have heq : c1 = c1' :=
            ih f2 c1 c1' x dc dc' hc1m hc1m' hdc hdc' hxdc hxdc' (by omega)
          rw [heq] at hc1
          exact childrenOf_disjoint hN hc1 hc1'

/-- Visited sets of descents never repeat an id (unique ids, acyclic). -/
theorem descL_nodup_spec {sv : List CapsuleVersion} (hN : NodupIds sv)
    (hA : Acyclic sv) :
    ∀ f, (∀ v ds, v ∈ idsOf sv →
        descL (buildChildrenMap sv) f v = some ds → ds.Nodup)
      ∧ (∀ cs ds s, (∀ c ∈ cs, c ∈ idsOf sv ∧ idSteps sv c = s) → cs.Nodup →
        descListLoop (descL (buildChildrenMap sv) f) cs = some ds → ds.Nodup) := by
  intro f
  induction f with
  | zero =>
    constructor
    · intro v ds _ h; cases h
    · intro cs ds s hmem hnd h
      cases cs with
      | nil => rw [descListLoop_nil_inv h]; exact List.nodup_nil
      | cons c rest =>
        simp only [descListLoop, descL] at h
        cases h
  | succ f ih =>
    have hnode : ∀ v ds, v ∈ idsOf sv →
        descL (buildChildrenMap sv) (f + 1) v = some ds → ds.Nodup := by
      intro v ds hv h
      obtain ⟨ds0, hdll, hds⟩ := descL_succ_inv h
      subst hds
      have hkids : ∀ c ∈ childrenOf (buildChildrenMap sv) v,
          c ∈ idsOf sv ∧ idSteps sv c = idSteps sv v + 1 :=
        fun c hc => idSteps_child hN hA hv hc
      have hnd0 : ds0.Nodup :=
        ih.2 (childrenOf (buildChildrenMap sv) v) ds0 (idSteps sv v + 1)
          hkids (childrenOf_nodup hN v) hdll
      rw [List.nodup_cons]
      refine ⟨?_, hnd0⟩
      intro hvmem
      obtain ⟨c, hc, dc, hdc, hvdc, _⟩ := descListLoop_mem_split hdll v hvmem
      obtain ⟨hcm, hstep⟩ := hkids c hc
      obtain ⟨_, hxor⟩ := descL_steps hN hA f c dc hcm hdc v hvdc
      rcases hxor with rfl | hlt <;> omega
    refine ⟨hnode, ?_⟩
    intro cs
    induction cs with
    | nil =>
      intro ds s _ _ h
      rw [descListLoop_nil_inv h]
      exact List.nodup_nil
    | cons c rest ihc =>
      intro ds s hmem hnd h
      obtain ⟨d1, drest, hd1, hdrest, hdseq⟩ := descListLoop_cons_inv h
      subst hdseq
      obtain ⟨hcnot, hndrest⟩ := List.nodup_cons.mp hnd
      rw [List.nodup_append]
      refine ⟨hnode c d1 (hmem c (List.mem_cons_self _ _)).1 hd1,
        ihc drest s (fun c' hc' => hmem c' (List.mem_cons_of_mem _ hc'))
          hndrest hdrest, ?_⟩
      intro x hx1 hx2
      obtain ⟨c', hc', dc', hdc', hxdc', _⟩ := descListLoop_mem_split hdrest x hx2
      have heq : c = c' := descL_unique hN hA (f + 1) (f + 1) c c' x d1 dc'
        (hmem c (List.mem_cons_self _ _)).1
        (hmem c' (List.mem_cons_of_mem _ hc')).1
        hd1 hdc' hx1 hxdc'
        (((hmem c (List.mem_cons_self _ _)).2).trans
          ((hmem c' (List.mem_cons_of_mem _ hc')).2).symm)
      rw [heq] at hcnot
      exact hcnot hc'

/-!  ### The fold over the roots  -/

/-- The visited set of one root (empty only when fuel would run out). -/
def rootDesc (cm : List (String × List String)) (fuel : Nat)
    (r : CapsuleVersion) : List String :=
  (descL cm fuel r.version_id).getD []

theorem runRoots_nil_inv {cm : List (String × List String)} {fuel idx : Nat}
    {st st' : LayoutState} (h : runRoots cm fuel [] idx st = some st') :
    st' = st := by
  simp only [runRoots] at h
  injection h with h
  exact h.symm

theorem runRoots_cons_inv {cm : List (String × List String)} {fuel idx : Nat}
    {r : CapsuleVersion} {rest : List CapsuleVersion} {st st' : LayoutState}
    (h : runRoots cm fuel (r :: rest) idx st = some st') :
    ∃ st2, assignPosition cm fuel r.version_id idx 0 st = some st2
      ∧ runRoots cm fuel rest (idx + 1) st2 = some st' := by
  simp only [runRoots] at h
  cases hc : assignPosition cm fuel r.version_id idx 0 st with
  | none => rw [hc] at h; simp at h
  | some st2 =>
    rw [hc] at h
    simp only [] at h
    exact ⟨st2, rfl, h⟩

/-- What the fold over the roots guarantees: positions grow by exactly the
union of the root descents, the per-node edge and first-child properties
hold on everything placed, the `j`-th root lands at `(lane idx + j, row 0)`,
and rows `0` stay confined to the root lanes. -/
theorem runRoots_out (cm : List (String × List String)) (fuel : Nat) :
    ∀ (rts : List CapsuleVersion) (idx : Nat) (st st' : LayoutState),
      runRoots cm fuel rts idx st = some st' →
      (∀ r ∈ rts, (descL cm fuel r.version_id).isSome) →
      (∀ r ∈ rts, (rootDesc cm fuel r).Nodup) →
      (∀ r ∈ rts, ∀ k ∈ rootDesc cm fuel r, lookupA st.positions k = none) →
      List.Pairwise (fun r1 r2 => ∀ x ∈ rootDesc cm fuel r1,
        x ∈ rootDesc cm fuel r2 → False) rts →
      (∀ lane r', r' ∈ usedRows st.laneUsage lane → 1 ≤ r' ∨ lane < idx) →
      (∃ new, st'.positions = st.positions ++ new
        ∧ (new.map Prod.fst).Nodup
        ∧ (∀ k, k ∈ new.map Prod.fst ↔ ∃ r ∈ rts, k ∈ rootDesc cm fuel r))
      ∧ (∀ r ∈ rts, ∀ k ∈ rootDesc cm fuel r,
          (∀ c ∈ childrenOf cm k,
            ∃ pk pc, lookupA st'.positions k = some pk
              ∧ lookupA st'.positions c = some pc ∧ pk.row < pc.row)
          ∧ (∀ c0 rest0, childrenOf cm k = c0 :: rest0 →
            ∃ pk pc, lookupA st'.positions k = some pk
              ∧ lookupA st'.positions c0 = some pc ∧ pc.lane = pk.lane))
      ∧ (∀ j (hj : j < rts.length),
          lookupA st'.positions ((rts.get ⟨j, hj⟩).version_id)
            = some ⟨(idx + j) * 80, 0, idx + j, 0⟩)
      ∧ (∀ lane r', r' ∈ usedRows st'.laneUsage lane →
          1 ≤ r' ∨ lane < idx + rts.length) := by
  intro rts
  induction rts with
  | nil =>
    intro idx st st' h _ _ _ _ hinv
    have hst := runRoots_nil_inv h
    subst hst
    refine ⟨⟨[], by simp, by simp, by simp⟩, ?_, ?_, ?_⟩
    · intro r hr; cases hr
    · intro j hj; cases hj
    · intro lane r' hr'
      rcases hinv lane r' hr' with h1 | h2
      · exact Or.inl h1
      · exact Or.inr (by omega)
  | cons r rest ih =>
    intro idx st st' h hsome hnd hfresh hdisj hinv
    obtain ⟨st2, hc, hrun⟩ := runRoots_cons_inv h
    obtain ⟨ds, hds⟩ := Option.isSome_iff_exists.mp
      (hsome r (List.mem_cons_self _ _))
    have hrd : rootDesc cm fuel r = ds := by rw [rootDesc, hds]; rfl
    have hndds : ds.Nodup := by
      have := hnd r (List.mem_cons_self _ _)
      rwa [hrd] at this
    have hfreshds : ∀ k ∈ ds, lookupA st.positions k = none := by
      intro k hk
      exact hfresh r (List.mem_cons_self _ _) k (hrd ▸ hk)
    obtain ⟨⟨⟨new1, hpos1, hkeys1⟩, hedge1, hfirst1⟩, hrent, hE1⟩ :=
      (assign_out_spec cm fuel).1 r.version_id idx 0 st st2 ds hc hds hndds
        hfreshds
    have hrow0 : resolvedRowAt st idx 0 = 0 := by
      apply resolveRow_of_not_mem
      intro hmem
      rcases hinv idx 0 hmem with h1 | h2 <;> omega
    rw [hrow0] at hrent
    have hpair := List.pairwise_cons.mp hdisj
    have hfresh2 : ∀ r' ∈ rest, ∀ k ∈ rootDesc cm fuel r',
        lookupA st2.positions k = none := by
      intro r' hr' k hk
      rw [hpos1]
      refine lookupA_append_both_none
        (hfresh r' (List.mem_cons_of_mem _ hr') k hk) ?_
      apply lookupA_eq_none_iff.mpr
      rw [hkeys1]
      intro hmem
      exact hpair.1 r' hr' k (hrd ▸ hmem) hk
    have hinv2 : ∀ lane r', r' ∈ usedRows st2.laneUsage lane →
        1 ≤ r' ∨ lane < idx + 1 := by
      intro lane r' hr'
      rcases hE1 lane r' hr' with h1 | h2 | h3
      · rcases hinv lane r' h1 with g1 | g2
        · exact Or.inl g1
        · exact Or.inr (by omega)
      · rw [hrow0] at h2
        exact Or.inr (by omega)
      · exact Or.inl (by omega)
    obtain ⟨⟨new2, hpos2, hkeys2nd, hkeys2⟩, hprops2, hroots2, hinv3⟩ :=
      ih (idx + 1) st2 st' hrun
        (fun r' hr' => hsome r' (List.mem_cons_of_mem _ hr'))
        (fun r' hr' => hnd r' (List.mem_cons_of_mem _ hr'))
        hfresh2 hpair.2 hinv2
    refine ⟨⟨new1 ++ new2, ?_, ?_, ?_⟩, ?_, ?_, ?_⟩
    · rw [hpos2, hpos1, List.append_assoc]
    · rw [List.map_append, List.nodup_append]
      refine ⟨by rw [hkeys1]; exact hndds, hkeys2nd, ?_⟩
      intro x hx1 hx2
      obtain ⟨r', hr', hxr'⟩ := (hkeys2 x).mp hx2
      rw [hkeys1] at hx1
      exact hpair.1 r' hr' x (hrd ▸ hx1) hxr'
    · intro k
      rw [List.map_append, List.mem_append, hkeys1, hkeys2]
      constructor
      · intro hmem
        rcases hmem with h1 | ⟨r', hr', hk⟩
        · exact ⟨r, List.mem_cons_self _ _, hrd ▸ h1⟩
        · exact ⟨r', List.mem_cons_of_mem _ hr', hk⟩
      · intro ⟨r', hr', hk⟩
        rcases List.mem_cons.mp hr' with rfl | hmem
        · exact Or.inl (hrd ▸ hk)
        · exact Or.inr ⟨r', hmem, hk⟩
    · intro r' hr' k hk
      rcases List.mem_cons.mp hr' with rfl | hmem
      · rw [hrd] at hk
        refine ⟨?_, ?_⟩
        · intro c hc
          obtain ⟨pk, pc, h1, h2, h3⟩ := hedge1 k hk c hc
          exact ⟨pk, pc, by rw [hpos2]; exact lookupA_append_some h1,
            by rw [hpos2]; exact lookupA_append_some h2, h3⟩
        · intro c0 rest0 heq
          obtain ⟨pk, pc, h1, h2, h3⟩ := hfirst1 k hk c0 rest0 heq
          exact ⟨pk, pc, by rw [hpos2]; exact lookupA_append_some h1,
            by rw [hpos2]; exact lookupA_append_some h2, h3⟩
      · exact hprops2 r' hmem k hk
    · intro j hj
      cases j with
      | zero =>
        simp only [List.get]
        have : lookupA st'.positions r.version_id
            = some ⟨idx * 80, 0 * 80, idx, 0⟩ := by
          rw [hpos2]
          exact lookupA_append_some hrent
        simpa using this
      | succ j =>
        have hj' : j < rest.length := by simpa using hj
        have := hroots2 j hj'
        simp only [List.get_cons_succ]
        have harith : idx + 1 + j = idx + (j + 1) := by omega
        rw [harith] at this
        exact this
    · intro lane r' hr'
      rcases hinv3 lane r' hr' with h1 | h2
      · exact Or.inl h1
      · refine Or.inr ?_
        have : lane < idx + 1 + rest.length := h2
        simpa [List.length_cons] using (by omega : lane < idx + (rest.length + 1))

/-!  ### Transfer between the raw input and the normalized batch

The Normalizer permutes the records and fills ordinals; neither changes an
id or a parent reference, so root/acyclicity structure carries over. -/

/-- Two records that agree on everything the forest builder inspects. -/
def GraphLike (v w : CapsuleVersion) : Prop :=
  v.version_id = w.version_id ∧ parentKey v = parentKey w

theorem graphLike_fillOrdinal (i : Nat) (v : CapsuleVersion) :
    GraphLike v (fillOrdinal i v) :=
  ⟨rfl, rfl⟩

theorem mem_fillOrdinals_forward :
    ∀ (l : List CapsuleVersion) (i : Nat) (w : CapsuleVersion),
      w ∈ fillOrdinals i l → ∃ v ∈ l, GraphLike v w := by
  intro l
  induction l with
  | nil => intro i w h; cases h
  | cons v rest ih =>
    intro i w h
    rcases List.mem_cons.mp h with rfl | hm
    · exact ⟨v, List.mem_cons_self _ _, graphLike_fillOrdinal i v⟩
    · obtain ⟨v', hv', hg⟩ := ih (i + 1) w hm
      exact ⟨v', List.mem_cons_of_mem _ hv', hg⟩

theorem mem_fillOrdinals_backward :
    ∀ (l : List CapsuleVersion) (i : Nat) (v : CapsuleVersion),
      v ∈ l → ∃ w ∈ fillOrdinals i l, GraphLike v w := by
  intro l
  induction l with
  | nil => intro i v h; cases h
  | cons v0 rest ih =>
    intro i v h
    rcases List.mem_cons.mp h with rfl | hm
    · exact ⟨fillOrdinal i v, List.mem_cons_self _ _, graphLike_fillOrdinal i v⟩
    · obtain ⟨w, hw, hg⟩ := ih (i + 1) v hm
      exact ⟨w, List.mem_cons_of_mem _ hw, hg⟩

theorem idsOf_fillOrdinals :
    ∀ (l : List CapsuleVersion) (i : Nat), idsOf (fillOrdinals i l) = idsOf l := by
  intro l
  induction l with
  | nil => intro i; rfl
  | cons v rest ih =>
    intro i
    simp only [fillOrdinals, idsOf, List.map_cons]
    rw [show (fillOrdinal i v).version_id = v.version_id from rfl]
    have := ih (i + 1)
    simp only [idsOf] at this
    rw [this]

theorem idsOf_sorted_perm (versions : List CapsuleVersion) :
    (idsOf (sortedVersions versions)).Perm (idsOf versions) := by
  rw [sortedVersions, idsOf_fillOrdinals]
  exact (perm_sortVersions versions).map _

theorem mem_idsOf_sorted {versions : List CapsuleVersion} {id : String} :
    id ∈ idsOf (sortedVersions versions) ↔ id ∈ idsOf versions :=
  (idsOf_sorted_perm versions).mem_iff

theorem nodupIds_sorted {versions : List CapsuleVersion} :
    NodupIds (sortedVersions versions) ↔ NodupIds versions :=
  (idsOf_sorted_perm versions).nodup_iff

theorem mem_sorted_forward {versions : List CapsuleVersion} {w : CapsuleVersion}
    (h : w ∈ sortedVersions versions) : ∃ v ∈ versions, GraphLike v w := by
  obtain ⟨v, hv, hg⟩ := mem_fillOrdinals_forward _ 0 w h
  exact ⟨v, (perm_sortVersions versions).mem_iff.mp hv, hg⟩

theorem mem_sorted_backward {versions : List CapsuleVersion} {v : CapsuleVersion}
    (h : v ∈ versions) : ∃ w ∈ sortedVersions versions, GraphLike v w :=
  mem_fillOrdinals_backward _ 0 v ((perm_sortVersions versions).mem_iff.mpr h)

theorem findRec_sorted_none {versions : List CapsuleVersion} {id : String}
    (h : findRec versions id = none) :
    findRec (sortedVersions versions) id = none := by
  rw [findRec_eq_none_iff] at h ⊢
  exact fun hm => h (mem_idsOf_sorted.mp hm)

theorem findRec_sorted_some {versions : List CapsuleVersion}
    (hN : NodupIds versions) {id : String} {w1 : CapsuleVersion}
    (h : findRec versions id = some w1) :
    ∃ w2, findRec (sortedVersions versions) id = some w2 ∧ GraphLike w1 w2 := by
  obtain ⟨hw1, hid1⟩ := findRec_mem h
  obtain ⟨w2, hfind2⟩ := findRec_isSome_of_mem
    (mem_idsOf_sorted.mpr (List.mem_map.mpr ⟨w1, hw1, hid1⟩))
  obtain ⟨hw2, hid2⟩ := findRec_mem hfind2
  obtain ⟨v, hv, hgv⟩ := mem_sorted_forward hw2
  have hvid : v.version_id = id := hgv.1.trans hid2
  have hv1 : v = w1 := List.inj_on_of_nodup_map hN hv hw1 (hvid.trans hid1.symm)
  refine ⟨w2, hfind2, ?_⟩
  rw [← hv1]
  exact hgv

theorem isRoot_sorted {versions : List CapsuleVersion} {v w : CapsuleVersion}
    (hg : GraphLike v w) :
    isRoot versions v = isRoot (sortedVersions versions) w := by
  rw [isRoot, isRoot, ← hg.2]
  cases hp : parentKey v with
  | none => rfl
  | some p =>
    simp only []
    congr 1
    rw [Bool.eq_iff_iff, any_id_eq_mem, any_id_eq_mem]
    exact mem_idsOf_sorted.symm

theorem stepsToRoot_sorted {versions : List CapsuleVersion}
    (hN : NodupIds versions) :
    ∀ f v w, GraphLike v w →
      stepsToRoot versions f v = stepsToRoot (sortedVersions versions) f w := by
  intro f
  induction f with
  | zero =>
    intro v w hg
    simp only [stepsToRoot]
    rw [isRoot_sorted hg]
  | succ f ih =>
    intro v w hg
    simp only [stepsToRoot]
    rw [isRoot_sorted hg]
    by_cases hr : isRoot (sortedVersions versions) w
    · rw [if_pos hr, if_pos hr]
    · rw [if_neg hr, if_neg hr, ← hg.2]
      cases hp : parentKey v with
      | none => rfl
      | some p =>
        simp only []
        cases hf : findRec versions p with
        | none =>
          rw [findRec_sorted_none hf]
        | some u1 =>
          obtain ⟨u2, hf2, hgu⟩ := findRec_sorted_some hN hf
          rw [hf2]
          simp only []
          rw [ih u1 u2 hgu]

theorem length_sortedVersions (versions : List CapsuleVersion) :
    (sortedVersions versions).length = versions.length := by
  rw [sortedVersions, fillOrdinals_length]
  exact (perm_sortVersions versions).length_eq

theorem acyclic_sorted {versions : List CapsuleVersion}
    (hN : NodupIds versions) (hA : Acyclic versions) :
    Acyclic (sortedVersions versions) := by
  intro w hw
  obtain ⟨v, hv, hg⟩ := mem_sorted_forward hw
  rw [← stepsToRoot_sorted hN _ v w hg, length_sortedVersions]
  exact hA v hv

/-!  ### Root facts and coverage  -/

theorem nodup_records {sv : List CapsuleVersion} (hN : NodupIds sv) : sv.Nodup :=
  hN.of_map _

theorem roots_descL_isSome {sv : List CapsuleVersion} (hN : NodupIds sv)
    (hA : Acyclic sv) :
    ∀ r ∈ sv.filter (fun v => isRoot sv v),
      (descL (buildChildrenMap sv) (sv.length + 1) r.version_id).isSome := by
  intro r hr
  obtain ⟨hrm, _⟩ := List.mem_filter.mp hr
  have hrid : r.version_id ∈ idsOf sv := List.mem_map.mpr ⟨r, hrm, rfl⟩
  exact descL_isSome_of_fuel hN hA (sv.length + 1) r.version_id hrid (by omega)

theorem roots_desc_nodup {sv : List CapsuleVersion} (hN : NodupIds sv)
    (hA : Acyclic sv) :
    ∀ r ∈ sv.filter (fun v => isRoot sv v),
      (rootDesc (buildChildrenMap sv) (sv.length + 1) r).Nodup := by
  intro r hr
  obtain ⟨hrm, _⟩ := List.mem_filter.mp hr
  have hrid : r.version_id ∈ idsOf sv := List.mem_map.mpr ⟨r, hrm, rfl⟩
  obtain ⟨ds, hds⟩ := Option.isSome_iff_exists.mp (roots_descL_isSome hN hA r hr)
  rw [rootDesc, hds]
  exact (descL_nodup_spec hN hA (sv.length + 1)).1 r.version_id ds hrid hds

theorem roots_desc_disjoint {sv : List CapsuleVersion} (hN : NodupIds sv)
    (hA : Acyclic sv) :
    List.Pairwise (fun r1 r2 => ∀ x ∈ rootDesc (buildChildrenMap sv) (sv.length + 1) r1,
      x ∈ rootDesc (buildChildrenMap sv) (sv.length + 1) r2 → False)
      (sv.filter (fun v => isRoot sv v)) := by
  have hndrts : (sv.filter (fun v => isRoot sv v)).Nodup :=
    (nodup_records hN).filter _
  refine List.Pairwise.imp_of_mem ?_ hndrts
  intro r1 r2 hr1 hr2 hne x hx1 hx2
  obtain ⟨hm1, hroot1⟩ := List.mem_filter.mp hr1
  obtain ⟨hm2, hroot2⟩ := List.mem_filter.mp hr2
  have hid1 : r1.version_id ∈ idsOf sv := List.mem_map.mpr ⟨r1, hm1, rfl⟩
  have hid2 : r2.version_id ∈ idsOf sv := List.mem_map.mpr ⟨r2, hm2, rfl⟩
  obtain ⟨ds1, hds1⟩ := Option.isSome_iff_exists.mp (roots_descL_isSome hN hA r1 hr1)
  obtain ⟨ds2, hds2⟩ := Option.isSome_iff_exists.mp (roots_descL_isSome hN hA r2 hr2)
  rw [rootDesc, hds1] at hx1
  rw [rootDesc, hds2] at hx2
  have hsteps : idSteps sv r1.version_id = idSteps sv r2.version_id := by
    rw [idSteps_root_zero hN hm1 hroot1, idSteps_root_zero hN hm2 hroot2]
  have heq : r1.version_id = r2.version_id :=
    descL_unique hN hA (sv.length + 1) (sv.length + 1) _ _ x ds1 ds2
      hid1 hid2 hds1 hds2 hx1 hx2 hsteps
  exact hne (List.inj_on_of_nodup_map hN hm1 hm2 heq)

theorem roots_desc_subset_ids {sv : List CapsuleVersion} (hN : NodupIds sv)
    (hA : Acyclic sv) :
    ∀ r ∈ sv.filter (fun v => isRoot sv v),
      ∀ k ∈ rootDesc (buildChildrenMap sv) (sv.length + 1) r, k ∈ idsOf sv := by
  intro r hr k hk
  obtain ⟨hrm, _⟩ := List.mem_filter.mp hr
  have hrid : r.version_id ∈ idsOf sv := List.mem_map.mpr ⟨r, hrm, rfl⟩
  obtain ⟨ds, hds⟩ := Option.isSome_iff_exists.mp (roots_descL_isSome hN hA r hr)
  rw [rootDesc, hds] at hk
  exact (descL_steps hN hA (sv.length + 1) r.version_id ds hrid hds k hk).1

/-- Every id of an acyclic batch is visited from some root. -/
theorem roots_cover {sv : List CapsuleVersion} (hN : NodupIds sv)
    (hA : Acyclic sv) :
    ∀ id ∈ idsOf sv, ∃ r ∈ sv.filter (fun v => isRoot sv v),
      id ∈ rootDesc (buildChildrenMap sv) (sv.length + 1) r := by
  suffices H : ∀ s id, id ∈ idsOf sv → idSteps sv id = s →
      ∃ r ∈ sv.filter (fun v => isRoot sv v),
        id ∈ rootDesc (buildChildrenMap sv) (sv.length + 1) r by
    intro id hid
    exact H (idSteps sv id) id hid rfl
  intro s
  induction s using Nat.strong_induction_on with
  | _ s ih =>
    intro id hid hsteps
    obtain ⟨w, hw⟩ := findRec_isSome_of_mem hid
    obtain ⟨hwm, hwid⟩ := findRec_mem hw
    by_cases hroot : isRoot sv w
    · have hrmem : w ∈ sv.filter (fun v => isRoot sv v) :=
        List.mem_filter.mpr ⟨hwm, hroot⟩
      obtain ⟨ds, hds⟩ := Option.isSome_iff_exists.mp
        (roots_descL_isSome hN hA w hrmem)
      refine ⟨w, hrmem, ?_⟩
      rw [rootDesc, hds]
      have := head_mem_descL hds
      rwa [hwid] at this
    · obtain ⟨p, hp, hpm⟩ := not_isRoot_iff.mp hroot
      have hcid : id ∈ childrenOf (buildChildrenMap sv) p :=
        mem_childrenOf_build.mpr ⟨w, hwm, hwid, hp⟩
      obtain ⟨_, hstep⟩ := idSteps_child hN hA hpm hcid
      have hlt : idSteps sv p < s := by omega
      obtain ⟨r, hr, hpr⟩ := ih (idSteps sv p) hlt p hpm rfl
      obtain ⟨ds, hds⟩ := Option.isSome_iff_exists.mp
        (roots_descL_isSome hN hA r hr)
      simp only [rootDesc, hds, Option.getD_some] at hpr
      refine ⟨r, hr, ?_⟩
      simp only [rootDesc, hds, Option.getD_some]
      exact descL_closed (sv.length + 1) r.version_id ds hds p hpr id hcid

theorem runRoots_isSome (cm : List (String × List String)) (fuel : Nat) :
    ∀ rts idx st, (∀ r ∈ rts, (descL cm fuel r.version_id).isSome) →
      (runRoots cm fuel rts idx st).isSome := by
  intro rts
  induction rts with
  | nil => intro idx st _; simp [runRoots]
  | cons r rest ih =>
    intro idx st hall
    have h1 : (assignPosition cm fuel r.version_id idx 0 st).isSome :=
      ((assign_isSome_spec cm fuel).1 _ _ _ _).mpr
        (hall r (List.mem_cons_self _ _))
    obtain ⟨st2, hst2⟩ := Option.isSome_iff_exists.mp h1
    simp only [runRoots, hst2]
    exact ih (idx + 1) st2 (fun r' hr' => hall r' (List.mem_cons_of_mem _ hr'))

theorem layout_eq_of_runRoots {versions : List CapsuleVersion} {st : LayoutState}
    (hne : ¬ (sortedVersions versions).isEmpty = true)
    (h : runRoots (buildChildrenMap (sortedVersions versions))
        (layoutFuel (sortedVersions versions))
        ((sortedVersions versions).filter
          (fun v => isRoot (sortedVersions versions) v)) 0 initState = some st) :
    layout versions = some
      ⟨st.positions,
        (st.positions.map (fun kp => kp.2.lane)).foldr max 0,
        (st.positions.map (fun kp => kp.2.row)).foldr max 0⟩ := by
  have hne' : (sortedVersions versions).isEmpty = false := by
    rwa [Bool.not_eq_true] at hne
  simp [layout, hne', h]

/-- The combined guarantees of a successful layout over a well-formed
(unique-id, acyclic) non-empty batch. -/
theorem layout_master (versions : List CapsuleVersion) (hN : NodupIds versions)
    (hA : Acyclic versions) (hne : versions ≠ []) :
    ∃ res, layout versions = some res
      ∧ (res.positions.map Prod.fst).Nodup
      ∧ (∀ id, id ∈ res.positions.map Prod.fst ↔ id ∈ idsOf versions)
      ∧ (∀ k, k ∈ idsOf versions →
          (∀ c ∈ childrenOf (buildChildrenMap (sortedVersions versions)) k,
            ∃ pk pc, lookupA res.positions k = some pk
              ∧ lookupA res.positions c = some pc ∧ pk.row < pc.row)
          ∧ (∀ c0 rest0,
              childrenOf (buildChildrenMap (sortedVersions versions)) k
                = c0 :: rest0 →
            ∃ pk pc, lookupA res.positions k = some pk
              ∧ lookupA res.positions c0 = some pc ∧ pc.lane = pk.lane))
      ∧ (∀ j (hj : j < ((sortedVersions versions).filter
            (fun v => isRoot (sortedVersions versions) v)).length),
          lookupA res.positions
            ((((sortedVersions versions).filter
              (fun v => isRoot (sortedVersions versions) v)).get
                ⟨j, hj⟩).version_id)
            = some ⟨j * 80, 0, j, 0⟩) := by
  have hNs : NodupIds (sortedVersions versions) := nodupIds_sorted.mpr hN
  have hAs : Acyclic (sortedVersions versions) := acyclic_sorted hN hA
  have hEmp : ¬ ((sortedVersions versions).isEmpty = true) := by
    rw [List.isEmpty_iff]
    intro hnil
    apply hne
    have hlen := length_sortedVersions versions
    rw [hnil] at hlen
    exact List.length_eq_zero.mp hlen.symm
  have hfuel : layoutFuel (sortedVersions versions)
      = (sortedVersions versions).length + 1 := rfl
  have hrsome := runRoots_isSome (buildChildrenMap (sortedVersions versions))
    (layoutFuel (sortedVersions versions))
    ((sortedVersions versions).filter (fun v => isRoot (sortedVersions versions) v))
    0 initState
    (by rw [hfuel]; exact roots_descL_isSome hNs hAs)
  obtain ⟨st, hst⟩ := Option.isSome_iff_exists.mp hrsome
  have hlay := layout_eq_of_runRoots hEmp hst
  rw [hfuel] at hst
  obtain ⟨⟨new, hnew, hnewnd, hnewkeys⟩, hprops, hroots, _⟩ :=
    runRoots_out (buildChildrenMap (sortedVersions versions))
      ((sortedVersions versions).length + 1)
      ((sortedVersions versions).filter (fun v => isRoot (sortedVersions versions) v))
      0 initState st hst
      (roots_descL_isSome hNs hAs)
      (roots_desc_nodup hNs hAs)
      (fun r _ k _ => rfl)
      (roots_desc_disjoint hNs hAs)
      (fun lane r' hr' => absurd hr' (List.not_mem_nil r'))
  have hpos : st.positions = new := by
    have : initState.positions = [] := rfl
    rw [this] at hnew
    simpa using hnew
  have hkeys_iff : ∀ id, id ∈ st.positions.map Prod.fst ↔ id ∈ idsOf versions := by
    intro id
    rw [hpos, hnewkeys id]
    constructor
    · intro ⟨r, hr, hk⟩
      exact mem_idsOf_sorted.mp (roots_desc_subset_ids hNs hAs r hr id hk)
    · intro hm
      exact roots_cover hNs hAs id (mem_idsOf_sorted.mpr hm)
  refine ⟨_, hlay, ?_, hkeys_iff, ?_, ?_⟩
  · rw [hpos]
    exact hnewnd
  · intro k hk
    obtain ⟨r, hr, hkr⟩ := roots_cover hNs hAs k (mem_idsOf_sorted.mpr hk)
    exact ⟨(hprops r hr k hkr).1, (hprops r hr k hkr).2⟩
  · intro j hj
    have := hroots j hj
    simpa using this

/-- Claim C2: for an acyclic batch with unique ids the positions map
covers exactly the input ids, each exactly once; empty input is not an
error — it yields the `null` layout, whose positions are empty. -/
theorem C2_positions_cover (versions : List CapsuleVersion)
    (hN : NodupIds versions) (hA : Acyclic versions) :
    ((positionsOf (layout versions)).map Prod.fst).Nodup
    ∧ (∀ id, id ∈ (positionsOf (layout versions)).map Prod.fst
        ↔ id ∈ idsOf versions)
    ∧ (versions = [] → layout versions = none
        ∧ positionsOf (layout versions) = []) := by
  by_cases hne : versions = []
  · subst hne
    have h0 : layout ([] : List CapsuleVersion) = none := rfl
    rw [h0]
    refine ⟨List.nodup_nil, ?_, fun _ => ⟨rfl, rfl⟩⟩
    intro id
    simp [positionsOf, idsOf]
  · obtain ⟨res, hres, hnd, hiff, _, _⟩ := layout_master versions hN hA hne
    rw [hres]
    exact ⟨hnd, hiff, fun h => absurd h hne⟩

/-- Claim C2, witness: the `a ← b, a ← c` scenario with unique ids. -/
theorem C2_witness :
    NodupIds [⟨"a", none, 0, none⟩, ⟨"b", some "a", 1, none⟩, ⟨"c", some "a", 2, none⟩]
    ∧ Acyclic [⟨"a", none, 0, none⟩, ⟨"b", some "a", 1, none⟩, ⟨"c", some "a", 2, none⟩]
    ∧ ("b" ∈ (positionsOf (layout [⟨"a", none, 0, none⟩, ⟨"b", some "a", 1, none⟩,
          ⟨"c", some "a", 2, none⟩])).map Prod.fst
        ↔ "b" ∈ idsOf [⟨"a", none, 0, none⟩, ⟨"b", some "a", 1, none⟩,
          ⟨"c", some "a", 2, none⟩]) :=
  ⟨by decide, by decide,
    (C2_positions_cover _ (by decide) (by decide)).2.1 "b"⟩

/-- Claim C5: over an acyclic batch with unique ids the layout recursion
terminates (the fuelled model never runs dry: a non-empty input yields
`some`) and every id receives a position. -/
theorem C5_total_on_acyclic (versions : List CapsuleVersion)
    (hN : NodupIds versions) (hA : Acyclic versions) :
    (versions ≠ [] → (layout versions).isSome)
    ∧ (∀ id ∈ idsOf versions,
        (lookupA (positionsOf (layout versions)) id).isSome) := by
  constructor
  · intro hne
    obtain ⟨res, hres, _⟩ := layout_master versions hN hA hne
    rw [hres]
    rfl
  · intro id hid
    have hne : versions ≠ [] := by
      intro h
      rw [h] at hid
      cases hid
  -- with the batch non-empty, the master lemma applies
    obtain ⟨res, hres, _, hiff, _, _⟩ := layout_master versions hN hA hne
    rw [hres]
    rw [lookupA_isSome_iff]
    exact (hiff id).mpr hid

/-- Claim C5, witness: the three-version scenario terminates and covers
`"c"`. -/
theorem C5_witness :
    NodupIds [⟨"a", none, 0, none⟩, ⟨"b", some "a", 1, none⟩, ⟨"c", some "a", 2, none⟩]
    ∧ Acyclic [⟨"a", none, 0, none⟩, ⟨"b", some "a", 1, none⟩, ⟨"c", some "a", 2, none⟩]
    ∧ "c" ∈ idsOf [⟨"a", none, 0, none⟩, ⟨"b", some "a", 1, none⟩, ⟨"c", some "a", 2, none⟩]
    ∧ (lookupA (positionsOf (layout [⟨"a", none, 0, none⟩, ⟨"b", some "a", 1, none⟩,
        ⟨"c", some "a", 2, none⟩])) "c").isSome :=
  ⟨by decide, by decide, by decide,
    (C5_total_on_acyclic _ (by decide) (by decide)).2 "c" (by decide)⟩

/-- Claim C4: in an acyclic batch with unique ids, every placed node whose
parent id is present in the batch sits strictly below its parent
(`row(child) > row(parent)`). -/
theorem C4_child_row_gt_parent (versions : List CapsuleVersion)
    (hN : NodupIds versions) (hA : Acyclic versions) :
    ∀ res, layout versions = some res →
      ∀ w ∈ versions, ∀ pid, parentKey w = some pid → pid ∈ idsOf versions →
        ∃ pw pp, lookupA res.positions w.version_id = some pw
          ∧ lookupA res.positions pid = some pp ∧ pp.row < pw.row := by
  intro res hres w hw pid hpid hpm
  have hne : versions ≠ [] := List.ne_nil_of_mem hw
  obtain ⟨res', hres', _, _, hprops, _⟩ := layout_master versions hN hA hne
  rw [hres] at hres'
  injection hres' with hres'
  subst hres'
  obtain ⟨w2, hw2, hg⟩ := mem_sorted_backward hw
  have hc : w.version_id ∈ childrenOf (buildChildrenMap (sortedVersions versions)) pid :=
    mem_childrenOf_build.mpr ⟨w2, hw2, hg.1.symm, hg.2 ▸ hpid⟩
  obtain ⟨pk, pc, h1, h2, h3⟩ := (hprops pid hpm).1 w.version_id hc
  exact ⟨pc, pk, h2, h1, h3⟩

/-- Claim C4, witness: `b`'s row 1 exceeds its parent `a`'s row 0. -/
theorem C4_witness :
    layout [⟨"a", none, 0, none⟩, ⟨"b", some "a", 1, none⟩, ⟨"c", some "a", 2, none⟩]
      = some ⟨[("a", ⟨0, 0, 0, 0⟩), ("b", ⟨0, 80, 0, 1⟩), ("c", ⟨80, 80, 1, 1⟩)], 1, 1⟩
    ∧ (⟨"b", some "a", 1, none⟩ : CapsuleVersion)
        ∈ [⟨"a", none, 0, none⟩, ⟨"b", some "a", 1, none⟩, ⟨"c", some "a", 2, none⟩]
    ∧ parentKey ⟨"b", some "a", 1, none⟩ = some "a"
    ∧ "a" ∈ idsOf [⟨"a", none, 0, none⟩, ⟨"b", some "a", 1, none⟩, ⟨"c", some "a", 2, none⟩]
    ∧ (∃ pw pp, lookupA [("a", (⟨0, 0, 0, 0⟩ : NodePosition)), ("b", ⟨0, 80, 0, 1⟩),
          ("c", ⟨80, 80, 1, 1⟩)] "b" = some pw
        ∧ lookupA [("a", (⟨0, 0, 0, 0⟩ : NodePosition)), ("b", ⟨0, 80, 0, 1⟩),
          ("c", ⟨80, 80, 1, 1⟩)] "a" = some pp
        ∧ pp.row < pw.row) :=
  ⟨rfl, by decide, rfl, by decide,
    C4_child_row_gt_parent
      [⟨"a", none, 0, none⟩, ⟨"b", some "a", 1, none⟩, ⟨"c", some "a", 2, none⟩]
      (by decide) (by decide)
      ⟨[("a", ⟨0, 0, 0, 0⟩), ("b", ⟨0, 80, 0, 1⟩), ("c", ⟨80, 80, 1, 1⟩)], 1, 1⟩ rfl
      ⟨"b", some "a", 1, none⟩ (by decide) "a" rfl (by decide)⟩

/-- Claim C8: the roots, in ascending chronological order, receive the
consecutive lanes 0, 1, 2, … (the `j`-th root of the sorted roots list
gets lane `j`), each at row 0. -/
theorem C8_roots_consecutive (versions : List CapsuleVersion)
    (hN : NodupIds versions) (hA : Acyclic versions) :
    ∀ res, layout versions = some res →
      List.Pairwise (fun a b : CapsuleVersion => a.created_at ≤ b.created_at)
        ((sortedVersions versions).filter
          (fun v => isRoot (sortedVersions versions) v))
      ∧ (∀ j w, ((sortedVersions versions).filter
            (fun v => isRoot (sortedVersions versions) v)).get? j = some w →
          lookupA res.positions w.version_id = some ⟨j * 80, 0, j, 0⟩) := by
  intro res hres
  have hne : versions ≠ [] := by
    intro h
    rw [h] at hres
    cases hres
  obtain ⟨res', hres', _, _, _, hroots⟩ := layout_master versions hN hA hne
  rw [hres] at hres'
  injection hres' with hres'
  subst hres'
  constructor
  · exact List.Pairwise.sublist (List.filter_sublist _)
      (pairwise_created_sortedVersions versions)
  · intro j w hw
    obtain ⟨hj, hget⟩ := List.get?_eq_some.mp hw
    rw [← hget]
    exact hroots j hj

/-- Claim C8, witness: two parentless versions in chronological order get
lanes 0 and 1 at row 0. -/
theorem C8_witness :
    NodupIds [⟨"r1", none, 0, none⟩, ⟨"r2", none, 1, none⟩]
    ∧ Acyclic [⟨"r1", none, 0, none⟩, ⟨"r2", none, 1, none⟩]
    ∧ layout [⟨"r1", none, 0, none⟩, ⟨"r2", none, 1, none⟩]
        = some ⟨[("r1", ⟨0, 0, 0, 0⟩), ("r2", ⟨80, 0, 1, 0⟩)], 1, 0⟩
    ∧ ((sortedVersions [⟨"r1", none, 0, none⟩, ⟨"r2", none, 1, none⟩]).filter
        (fun v => isRoot (sortedVersions [⟨"r1", none, 0, none⟩,
          ⟨"r2", none, 1, none⟩]) v)).get? 1 = some ⟨"r2", none, 1, some 2⟩
    ∧ lookupA [("r1", (⟨0, 0, 0, 0⟩ : NodePosition)), ("r2", ⟨80, 0, 1, 0⟩)] "r2"
        = some ⟨80, 0, 1, 0⟩ :=
  ⟨by decide, by decide, rfl, by decide,
    (C8_roots_consecutive [⟨"r1", none, 0, none⟩, ⟨"r2", none, 1, none⟩]
      (by decide) (by decide)
      ⟨[("r1", ⟨0, 0, 0, 0⟩), ("r2", ⟨80, 0, 1, 0⟩)], 1, 0⟩ rfl).2 1
      ⟨"r2", none, 1, some 2⟩ (by decide)⟩

/-- Claim C10: a placement request keeps exactly its requested lane —
collision resolution only ever increases the row, to the first free row of
that lane; consequently the first child of every node lands in its
parent's lane, and the `j`-th root's lane is exactly `j`. -/
theorem C10_requested_lane_kept (versions : List CapsuleVersion)
    (hN : NodupIds versions) (hA : Acyclic versions) :
    (∀ st vId lane startRow,
      lookupA (placeAt st vId lane startRow).positions vId
        = some ⟨lane * 80, resolvedRowAt st lane startRow * 80, lane,
            resolvedRowAt st lane startRow⟩
      ∧ startRow ≤ resolvedRowAt st lane startRow
      ∧ resolvedRowAt st lane startRow ∉ usedRows st.laneUsage lane
      ∧ (∀ j, startRow ≤ j → j < resolvedRowAt st lane startRow →
          j ∈ usedRows st.laneUsage lane))
    ∧ (∀ res, layout versions = some res →
        (∀ k, k ∈ idsOf versions →
          ∀ c0 rest0, childrenOf (buildChildrenMap (sortedVersions versions)) k
              = c0 :: rest0 →
            ∃ pk pc, lookupA res.positions k = some pk
              ∧ lookupA res.positions c0 = some pc ∧ pc.lane = pk.lane)
        ∧ (∀ j w, ((sortedVersions versions).filter
              (fun v => isRoot (sortedVersions versions) v)).get? j = some w →
            ∃ pw, lookupA res.positions w.version_id = some pw ∧ pw.lane = j)) := by
  constructor
  · intro st vId lane startRow
    exact ⟨lookupA_placeAt_self st vId lane startRow,
      resolveRow_ge _ _,
      resolveRow_not_mem _ _,
      fun j h1 h2 => resolveRow_min _ _ j h1 h2⟩
  · intro res hres
    have hne : versions ≠ [] := by
      intro h
      rw [h] at hres
      cases hres
    obtain ⟨res', hres', _, _, hprops, hroots⟩ := layout_master versions hN hA hne
    rw [hres] at hres'
    injection hres' with hres'
    subst hres'
    constructor
    · intro k hk c0 rest0 hch
      exact (hprops k hk).2 c0 rest0 hch
    · intro j w hw
      obtain ⟨hj, hget⟩ := List.get?_eq_some.mp hw
      rw [← hget]
      exact ⟨_, hroots j hj, rfl⟩

/-- Claim C10, witness: in the branching scenario the first child `b`
keeps its parent's lane 0 even though requesting an occupied grid region,
and the single root's lane is 0; the placement primitive keeps requested
lanes exactly. -/
theorem C10_witness :
    NodupIds [⟨"a", none, 0, none⟩, ⟨"b", some "a", 1, none⟩, ⟨"c", some "a", 2, none⟩]
    ∧ Acyclic [⟨"a", none, 0, none⟩, ⟨"b", some "a", 1, none⟩, ⟨"c", some "a", 2, none⟩]
    ∧ layout [⟨"a", none, 0, none⟩, ⟨"b", some "a", 1, none⟩, ⟨"c", some "a", 2, none⟩]
        = some ⟨[("a", ⟨0, 0, 0, 0⟩), ("b", ⟨0, 80, 0, 1⟩), ("c", ⟨80, 80, 1, 1⟩)], 1, 1⟩
    ∧ "a" ∈ idsOf [⟨"a", none, 0, none⟩, ⟨"b", some "a", 1, none⟩, ⟨"c", some "a", 2, none⟩]
    ∧ childrenOf (buildChildrenMap (sortedVersions [⟨"a", none, 0, none⟩,
        ⟨"b", some "a", 1, none⟩, ⟨"c", some "a", 2, none⟩])) "a" = ["b", "c"]
    ∧ (∃ pk pc, lookupA [("a", (⟨0, 0, 0, 0⟩ : NodePosition)), ("b", ⟨0, 80, 0, 1⟩),
          ("c", ⟨80, 80, 1, 1⟩)] "a" = some pk
        ∧ lookupA [("a", (⟨0, 0, 0, 0⟩ : NodePosition)), ("b", ⟨0, 80, 0, 1⟩),
          ("c", ⟨80, 80, 1, 1⟩)] "b" = some pc
        ∧ pc.lane = pk.lane) :=
  ⟨by decide, by decide, rfl, by decide, by decide,
    ((C10_requested_lane_kept
        [⟨"a", none, 0, none⟩, ⟨"b", some "a", 1, none⟩, ⟨"c", some "a", 2, none⟩]
        (by decide) (by decide)).2
      ⟨[("a", ⟨0, 0, 0, 0⟩), ("b", ⟨0, 80, 0, 1⟩), ("c", ⟨80, 80, 1, 1⟩)], 1, 1⟩
      rfl).1 "a" (by decide) "b" ["c"] (by decide)⟩

/-!  ### Lane allocation: when is a branch lane really new?  -/

/-- `c` is a non-first child of some node (the siblings that request a
fresh lane from `Object.keys(laneNextRow).length`). -/
def LaterSib (cm : List (String × List String)) (c : String) : Prop :=
  ∃ k, c ∈ (childrenOf cm k).tail

/-- The lane-accounting invariant: `laneNextRow`'s keys are exactly
`0, …, size−1` in order, and every recorded lane is below the size.  It
holds along single-root traversals (multi-root inputs break it, which is
exactly why claim C3 fails there). -/
def LaneInv (st : LayoutState) : Prop :=
  st.laneNextRow.map Prod.fst = List.range st.laneNextRow.length
  ∧ (∀ e ∈ st.positions, e.2.lane < st.laneNextRow.length)

/-- Every later-sibling entry of the positions list has a lane that no
earlier entry uses. -/
def SibFresh (cm : List (String × List String))
    (pos : List (String × NodePosition)) : Prop :=
  ∀ l1 e l2, pos = l1 ++ e :: l2 → LaterSib cm e.1 →
    ∀ e' ∈ l1, e'.2.lane ≠ e.2.lane

theorem snoc_split {α : Type} {l1 l2 pos : List α} {e x : α}
    (h : l1 ++ e :: l2 = pos ++ [x]) :
    (l2 = [] ∧ l1 = pos ∧ e = x)
    ∨ (∃ l2', l2 = l2' ++ [x] ∧ pos = l1 ++ e :: l2') := by
  rcases List.eq_nil_or_concat l2 with rfl | ⟨l2', a, rfl⟩
  · left
    have h2 : l1 ++ [e] = pos ++ [x] := h
    obtain ⟨h3, h4⟩ := List.append_inj' h2 rfl
    exact ⟨rfl, h3, List.singleton_inj.mp h4⟩
  · right
    have h2 : (l1 ++ e :: l2') ++ [a] = pos ++ [x] := by
      simpa using h
    obtain ⟨h3, h4⟩ := List.append_inj' h2 rfl
    exact ⟨l2', by rw [List.singleton_inj.mp h4, List.concat_eq_append], h3.symm⟩

theorem sibFresh_append_one {cm : List (String × List String)}
    {pos : List (String × NodePosition)} {v : String} {pv : NodePosition}
    (hsf : SibFresh cm pos)
    (hnew : LaterSib cm v → ∀ e' ∈ pos, e'.2.lane ≠ pv.lane) :
    SibFresh cm (pos ++ [(v, pv)]) := by
  intro l1 e l2 heq hls e' he'
  rcases snoc_split heq.symm with ⟨_, h3, h4⟩ | ⟨l2', _, h3⟩
  · subst h4
    exact hnew hls e' (h3 ▸ he')
  · exact hsf l1 e l2' h3 hls e' he'

/-- The lane facts carried through one placement call: preconditions on
the requested lane, conclusions re-establishing the invariant. -/
def AssignLane (cm : List (String × List String)) (f : Nat) : Prop :=
  ∀ v lane startRow st st' ds,
    assignPosition cm f v lane startRow st = some st' →
    descL cm f v = some ds → ds.Nodup →
    (∀ k ∈ ds, lookupA st.positions k = none) →
    LaneInv st → SibFresh cm st.positions →
    lane < st.laneNextRow.length →
    (LaterSib cm v → ∀ e ∈ st.positions, e.2.lane ≠ lane) →
    LaneInv st' ∧ SibFresh cm st'.positions
      ∧ st.laneNextRow.length ≤ st'.laneNextRow.length

/-- The same facts for the children pass. -/
def ChildrenLane (cm : List (String × List String)) (f : Nat) : Prop :=
  ∀ cs idx lane row st st' ds,
    childLoop (assignPosition cm f) lane row cs idx st = some st' →
    descListLoop (descL cm f) cs = some ds → ds.Nodup →
    (∀ k ∈ ds, lookupA st.positions k = none) →
    LaneInv st → SibFresh cm st.positions →
    lane < st.laneNextRow.length →
    (idx = 0 → ∀ c0 rest0, cs = c0 :: rest0 → ¬ LaterSib cm c0) →
    LaneInv st' ∧ SibFresh cm st'.positions
      ∧ st.laneNextRow.length ≤ st'.laneNextRow.length

theorem mem_upsertA {α β : Type} [DecidableEq α] {m : List (α × β)} {k : α}
    {v : β} {e : α × β} (h : e ∈ upsertA m k v) : e = (k, v) ∨ e ∈ m := by
  induction m with
  | nil => simpa [upsertA] using h
  | cons e0 rest ih =>
    obtain ⟨k0, v0⟩ := e0
    by_cases hk : k0 = k
    · simp only [upsertA, hk, ite_true] at h
      rcases List.mem_cons.mp h with rfl | hm
      · exact Or.inl rfl
      · exact Or.inr (List.mem_cons_of_mem _ hm)
    · simp only [upsertA, hk, ite_false] at h
      rcases List.mem_cons.mp h with rfl | hm
      · exact Or.inr (List.mem_cons_self _ _)
      · rcases ih hm with h1 | h1
        · exact Or.inl h1
        · exact Or.inr (List.mem_cons_of_mem _ h1)

theorem laneInv_placeAt {st : LayoutState} {v : String} {lane startRow : Nat}
    (hinv : LaneInv st) (hlane : lane < st.laneNextRow.length) :
    LaneInv (placeAt st v lane startRow) := by
  refine ⟨hinv.1, ?_⟩
  intro e he
  simp only [placeAt] at he
  rcases mem_upsertA he with rfl | hm
  · exact hlane
  · exact hinv.2 e hm

theorem branch_laneNextRow_length {st : LayoutState} (hinv : LaneInv st)
    (v : Nat) :
    (upsertA st.laneNextRow st.laneNextRow.length v).length
      = st.laneNextRow.length + 1 := by
  have hfresh : st.laneNextRow.length ∉ st.laneNextRow.map Prod.fst := by
    rw [hinv.1]
    intro hm
    exact Nat.lt_irrefl _ (List.mem_range.mp hm)
  rw [upsertA_of_not_mem _ hfresh, List.length_append]
  rfl

theorem laneInv_branch {st : LayoutState} (hinv : LaneInv st) (v : Nat) :
    LaneInv { st with
      laneNextRow := upsertA st.laneNextRow st.laneNextRow.length v } := by
  have hfresh : st.laneNextRow.length ∉ st.laneNextRow.map Prod.fst := by
    rw [hinv.1]
    intro hm
    exact Nat.lt_irrefl _ (List.mem_range.mp hm)
  constructor
  · show (upsertA st.laneNextRow st.laneNextRow.length v).map Prod.fst
      = List.range (upsertA st.laneNextRow st.laneNextRow.length v).length
    rw [upsertA_of_not_mem _ hfresh, List.map_append, hinv.1,
      List.length_append]
    simp [List.range_succ]
  · intro e he
    have h1 : e.2.lane < st.laneNextRow.length := hinv.2 e he
    have h2 := branch_laneNextRow_length hinv v
    show e.2.lane < (upsertA st.laneNextRow st.laneNextRow.length v).length
    omega

/-- The lane induction: requested lanes below the allocation count keep
the invariant, and every later sibling receives a lane distinct from all
previously placed nodes. -/
theorem assign_lane_spec (cm : List (String × List String))
    (hcm1 : ∀ k, (childrenOf cm k).Nodup)
    (hcm2 : ∀ k1 k2 c, c ∈ childrenOf cm k1 → c ∈ childrenOf cm k2 → k1 = k2) :
    ∀ f, AssignLane cm f ∧ ChildrenLane cm f := by
  have hhead_not : ∀ v c0 rest0, childrenOf cm v = c0 :: rest0 →
      ¬ LaterSib cm c0 := by
    intro v c0 rest0 heq ⟨k, hktail⟩
    have hk0 : c0 ∈ childrenOf cm k := List.mem_of_mem_tail hktail
    have hv0 : c0 ∈ childrenOf cm v := by
      rw [heq]
      exact List.mem_cons_self _ _
    have hkv : k = v := hcm2 k v c0 hk0 hv0
    rw [hkv, heq] at hktail
    have := hcm1 v
    rw [heq] at this
    exact (List.nodup_cons.mp this).1 hktail
  intro f
  induction f with
  | zero =>
    constructor
    · intro v lane startRow st st' ds h
      cases h
    · intro cs idx lane row st st' ds h hds hnd hfresh hinv hsf hlane hhead
      cases cs with
      | nil =>
        have hst := childLoop_nil_inv h
        subst hst
        exact ⟨hinv, hsf, Nat.le_refl _⟩
      | cons c rest =>
        exfalso
        by_cases hidx : idx = 0
        · subst hidx
          obtain ⟨st2, hc2, _⟩ := childLoop_cons_zero_inv h
          cases hc2
        · obtain ⟨st2, hc2, _⟩ := childLoop_cons_pos_inv hidx h
          cases hc2
  | succ f ih =>
    have hA : AssignLane cm (f + 1) := by
      intro v lane startRow st st' ds h hds hnd hfresh hinv hsf hlane hls
      obtain ⟨ds0, hdll, hds0⟩ := descL_succ_inv hds
      subst hds0
      rw [assignPosition_succ_unfold] at h
      have hvfresh : lookupA st.positions v = none :=
        hfresh v (List.mem_cons_self _ _)
      obtain ⟨hvnot, hnd0⟩ := List.nodup_cons.mp hnd
      have hpos1 := placeAt_positions_fresh lane startRow hvfresh
      have hinv1 : LaneInv (placeAt st v lane startRow) :=
        laneInv_placeAt hinv hlane
      have hsf1 : SibFresh cm (placeAt st v lane startRow).positions := by
        rw [hpos1]
        exact sibFresh_append_one hsf hls
      have hfresh1 : ∀ k ∈ ds0,
          lookupA (placeAt st v lane startRow).positions k = none := by
        intro k hk
        rw [hpos1]
        refine lookupA_append_both_none (hfresh k (List.mem_cons_of_mem _ hk)) ?_
        have hkv : ¬ (v = k) := fun hh => hvnot (hh ▸ hk)
        simp [lookupA, hkv]
      have hlane1 : lane < (placeAt st v lane startRow).laneNextRow.length :=
        hlane
      obtain ⟨hinv', hsf', hle'⟩ := ih.2 (childrenOf cm v) 0 lane
        (resolvedRowAt st lane startRow) (placeAt st v lane startRow) st' ds0
        h hdll hnd0 hfresh1 hinv1 hsf1 hlane1
        (fun _ c0 rest0 heq => hhead_not v c0 rest0 heq)
      exact ⟨hinv', hsf', hle'⟩
    have hC : ChildrenLane cm (f + 1) := by
      intro cs
      induction cs with
      | nil =>
        intro idx lane row st st' ds h hds hnd hfresh hinv hsf hlane hhead
        have hst := childLoop_nil_inv h
        subst hst
        exact ⟨hinv, hsf, Nat.le_refl _⟩
      | cons c rest ihc =>
        intro idx lane row st st' ds h hds hnd hfresh hinv hsf hlane hhead
        obtain ⟨d1, drest, hd1, hdrest, hdseq⟩ := descListLoop_cons_inv hds
        subst hdseq
        rw [List.nodup_append] at hnd
        obtain ⟨hnd1, hndrest, hdisj⟩ := hnd
        have hfresh_d1 : ∀ k ∈ d1, lookupA st.positions k = none :=
          fun k hk => hfresh k (List.mem_append_left _ hk)
        have hfresh_drest : ∀ k ∈ drest, lookupA st.positions k = none :=
          fun k hk => hfresh k (List.mem_append_right _ hk)
        by_cases hidx : idx = 0
        · subst hidx
          obtain ⟨st2, hc2, hrest2⟩ := childLoop_cons_zero_inv h
          have hnls : ¬ LaterSib cm c := hhead rfl c rest rfl
          obtain ⟨hinv2, hsf2, hle2⟩ := hA c lane (row + 1) st st2 d1 hc2 hd1
            hnd1 hfresh_d1 hinv hsf hlane (fun hls => absurd hls hnls)
          obtain ⟨⟨⟨new1, hpos1, hkeys1⟩, _, _⟩, _, _⟩ :=
            (assign_out_spec cm (f + 1)).1 c lane (row + 1) st st2 d1 hc2 hd1
              hnd1 hfresh_d1
          have hfresh2 : ∀ k ∈ drest, lookupA st2.positions k = none := by
            intro k hk
            rw [hpos1]
            refine lookupA_append_both_none (hfresh_drest k hk) ?_
            apply lookupA_eq_none_iff.mpr
            rw [hkeys1]
            exact fun hmem => hdisj hmem hk
          obtain ⟨hinv3, hsf3, hle3⟩ := ihc 1 lane row st2 st' drest hrest2
            hdrest hndrest hfresh2 hinv2 hsf2 (by omega)
            (fun h0 => absurd h0 (by omega))
          exact ⟨hinv3, hsf3, by omega⟩
        · obtain ⟨st2, hc2, hrest2⟩ := childLoop_cons_pos_inv hidx h
          have hinvb : LaneInv { st with
              laneNextRow := upsertA st.laneNextRow st.laneNextRow.length
                (row + 1) } :=
            laneInv_branch hinv (row + 1)
          have hlenb := branch_laneNextRow_length hinv (row + 1)
          obtain ⟨hinv2, hsf2, hle2⟩ := hA c st.laneNextRow.length (row + 1)
            _ st2 d1 hc2 hd1 hnd1 hfresh_d1 hinvb hsf
            (by
              show st.laneNextRow.length <
                (upsertA st.laneNextRow st.laneNextRow.length (row + 1)).length
              omega)
            (fun _ e he => Nat.ne_of_lt (hinv.2 e he))
          obtain ⟨⟨⟨new1, hpos1, hkeys1⟩, _, _⟩, _, _⟩ :=
            (assign_out_spec cm (f + 1)).1 c st.laneNextRow.length (row + 1)
              _ st2 d1 hc2 hd1 hnd1 hfresh_d1
          have hfresh2 : ∀ k ∈ drest, lookupA st2.positions k = none := by
            intro k hk
            rw [hpos1]
            refine lookupA_append_both_none (hfresh_drest k hk) ?_
            apply lookupA_eq_none_iff.mpr
            rw [hkeys1]
            exact fun hmem => hdisj hmem hk
          have hle2' : st.laneNextRow.length + 1 ≤ st2.laneNextRow.length := by
            rw [← hlenb]
            exact hle2
          obtain ⟨hinv3, hsf3, hle3⟩ := ihc (idx + 1) lane row st2 st' drest
            hrest2 hdrest hndrest hfresh2 hinv2 hsf2 (by omega)
            (fun h0 => absurd h0 (by omega))
          exact ⟨hinv3, hsf3, by omega⟩
    exact ⟨hA, hC⟩

/-- Claim C3, counterexample: with the two roots `a`, `b` and the two
children `c`, `d` of `b`, the second sibling `d` requests lane
`Object.keys(laneNextRow).length = 1` — but root lanes are never
registered in `laneNextRow`, so lane 1 is exactly the lane already holding
the previously placed `b` (row 0) and `c` (row 1); `d` is shunted to row 2
of the same lane instead of a brand-new lane. -/
theorem C3_counterexample :
    NodupIds [⟨"a", none, 0, none⟩, ⟨"b", none, 1, none⟩,
      ⟨"c", some "b", 2, none⟩, ⟨"d", some "b", 3, none⟩]
    ∧ Acyclic [⟨"a", none, 0, none⟩, ⟨"b", none, 1, none⟩,
      ⟨"c", some "b", 2, none⟩, ⟨"d", some "b", 3, none⟩]
    ∧ childrenOf (buildChildrenMap (sortedVersions [⟨"a", none, 0, none⟩,
        ⟨"b", none, 1, none⟩, ⟨"c", some "b", 2, none⟩,
        ⟨"d", some "b", 3, none⟩])) "b" = ["c", "d"]
    ∧ layout [⟨"a", none, 0, none⟩, ⟨"b", none, 1, none⟩,
        ⟨"c", some "b", 2, none⟩, ⟨"d", some "b", 3, none⟩]
      = some ⟨[("a", ⟨0, 0, 0, 0⟩), ("b", ⟨80, 0, 1, 0⟩),
          ("c", ⟨80, 80, 1, 1⟩), ("d", ⟨80, 160, 1, 2⟩)], 1, 2⟩
    ∧ ¬ SibFresh (buildChildrenMap (sortedVersions [⟨"a", none, 0, none⟩,
        ⟨"b", none, 1, none⟩, ⟨"c", some "b", 2, none⟩,
        ⟨"d", some "b", 3, none⟩]))
        [("a", ⟨0, 0, 0, 0⟩), ("b", ⟨80, 0, 1, 0⟩),
          ("c", ⟨80, 80, 1, 1⟩), ("d", ⟨80, 160, 1, 2⟩)] := by
  refine ⟨by decide, by decide, by decide, rfl, ?_⟩
  intro hsf
  have := hsf [("a", ⟨0, 0, 0, 0⟩), ("b", ⟨80, 0, 1, 0⟩), ("c", ⟨80, 80, 1, 1⟩)]
    ("d", ⟨80, 160, 1, 2⟩) [] rfl ⟨"b", by decide⟩
    ("b", ⟨80, 0, 1, 0⟩) (by decide)
  exact this rfl

/-- Claim C3 (amended): for every acyclic batch with unique ids, the first
child of each node is placed in its parent's lane; and whenever the batch
has a *single* root, every subsequent sibling is placed in a brand-new
lane that no previously placed node has used.  (With several roots the
sibling lane — the size of `laneNextRow`, in which root lanes are never
registered — can coincide with a previously used root lane, as the
counterexample shows.) -/
theorem C3_branch_lanes (versions : List CapsuleVersion)
    (hN : NodupIds versions) (hA : Acyclic versions) :
    ∀ res, layout versions = some res →
      (∀ k, k ∈ idsOf versions →
        ∀ c0 rest0, childrenOf (buildChildrenMap (sortedVersions versions)) k
            = c0 :: rest0 →
          ∃ pk pc, lookupA res.positions k = some pk
            ∧ lookupA res.positions c0 = some pc ∧ pc.lane = pk.lane)
      ∧ (((sortedVersions versions).filter
            (fun v => isRoot (sortedVersions versions) v)).length = 1 →
          SibFresh (buildChildrenMap (sortedVersions versions)) res.positions) := by
  intro res hres
  have hne : versions ≠ [] := by
    intro h
    rw [h] at hres
    cases hres
  have hNs : NodupIds (sortedVersions versions) := nodupIds_sorted.mpr hN
  have hAs : Acyclic (sortedVersions versions) := acyclic_sorted hN hA
  constructor
  · obtain ⟨res', hres', _, _, hprops, _⟩ := layout_master versions hN hA hne
    rw [hres] at hres'
    injection hres' with hres'
    subst hres'
    intro k hk c0 rest0 hch
    exact (hprops k hk).2 c0 rest0 hch
  · intro hsingle
    obtain ⟨st, hrun, hres'⟩ := layout_eq_some hres
    obtain ⟨r, hr⟩ := List.length_eq_one.mp hsingle
    rw [hr] at hrun
    obtain ⟨st2, hc, hnilrun⟩ := runRoots_cons_inv hrun
    have hst2 : st = st2 := runRoots_nil_inv hnilrun
    subst hst2
    have hrmem : r ∈ (sortedVersions versions).filter
        (fun v => isRoot (sortedVersions versions) v) := by
      rw [hr]
      exact List.mem_cons_self _ _
    have hfuel : layoutFuel (sortedVersions versions)
        = (sortedVersions versions).length + 1 := rfl
    rw [hfuel] at hc
    obtain ⟨ds, hds⟩ := Option.isSome_iff_exists.mp
      (roots_descL_isSome hNs hAs r hrmem)
    have hndds : ds.Nodup := by
      have := roots_desc_nodup hNs hAs r hrmem
      rwa [rootDesc, hds, Option.getD_some] at this
    have hinv0 : LaneInv initState := by
      constructor
      · decide
      · intro e he
        cases he
    have hsf0 : SibFresh (buildChildrenMap (sortedVersions versions))
        initState.positions := by
      intro l1 e l2 heq
      exfalso
      cases l1 with
      | nil => cases heq
      | cons x xs => cases heq
    obtain ⟨_, hsf, _⟩ :=
      ((assign_lane_spec (buildChildrenMap (sortedVersions versions))
          (childrenOf_nodup hNs)
          (fun k1 k2 c h1 h2 => childrenOf_disjoint hNs h1 h2)
          ((sortedVersions versions).length + 1)).1)
        r.version_id 0 0 initState st ds hc hds hndds
        (fun k _ => rfl) hinv0 hsf0 (by decide)
        (fun _ e he => absurd he (List.not_mem_nil e))
    rw [hres']
    exact hsf

/-- Claim C3, witness: the single-root scenario `a ← b, a ← c` — the first
child `b` keeps lane 0, and the later sibling `c`'s lane 1 is used by no
earlier-placed node. -/
theorem C3_witness :
    NodupIds [⟨"a", none, 0, none⟩, ⟨"b", some "a", 1, none⟩, ⟨"c", some "a", 2, none⟩]
    ∧ Acyclic [⟨"a", none, 0, none⟩, ⟨"b", some "a", 1, none⟩, ⟨"c", some "a", 2, none⟩]
    ∧ ((sortedVersions [⟨"a", none, 0, none⟩, ⟨"b", some "a", 1, none⟩,
        ⟨"c", some "a", 2, none⟩]).filter
        (fun v => isRoot (sortedVersions [⟨"a", none, 0, none⟩,
          ⟨"b", some "a", 1, none⟩, ⟨"c", some "a", 2, none⟩]) v)).length = 1
    ∧ layout [⟨"a", none, 0, none⟩, ⟨"b", some "a", 1, none⟩, ⟨"c", some "a", 2, none⟩]
        = some ⟨[("a", ⟨0, 0, 0, 0⟩), ("b", ⟨0, 80, 0, 1⟩), ("c", ⟨80, 80, 1, 1⟩)], 1, 1⟩
    ∧ (("b", (⟨0, 80, 0, 1⟩ : NodePosition)).2.lane
        ≠ (("c", (⟨80, 80, 1, 1⟩ : NodePosition))).2.lane) :=
  ⟨by decide, by decide, by decide, rfl,
    ((C3_branch_lanes
        [⟨"a", none, 0, none⟩, ⟨"b", some "a", 1, none⟩, ⟨"c", some "a", 2, none⟩]
        (by decide) (by decide)
        ⟨[("a", ⟨0, 0, 0, 0⟩), ("b", ⟨0, 80, 0, 1⟩), ("c", ⟨80, 80, 1, 1⟩)], 1, 1⟩
        rfl).2 (by decide))
      [("a", ⟨0, 0, 0, 0⟩), ("b", ⟨0, 80, 0, 1⟩)] ("c", ⟨80, 80, 1, 1⟩) [] rfl
      ⟨"a", by decide⟩ ("b", ⟨0, 80, 0, 1⟩) (by decide)⟩

end CapsuleGraph
